import Mathlib

/-!
Verification of the Parser repository (Parser.py): a shallow embedding of
its HTML-tree pruner (`main_content`, `_calc_depth`, `_calc_density`), its
preprocessor (`_prepocess`), and its text formatter (`prepare_text`,
`_get_urls`, `_domain_name`), together with theorems settling the frozen
claims C1-C10.

Modelling conventions:
- A bs4 node is `HNode`: either a `text` node (NavigableString: no
  `contents` attribute, no tag name) or an `elem` node (Tag: tag name and
  ordered `contents`).  Contents are a mutually inductive list `HForest`
  so that all tree functions are structurally recursive and evaluate in
  the kernel; `HForest.toList` bridges to ordinary lists for statements.
  The `id` field models Python object identity; every removal/exemption
  decision in the source is structural, so two structurally equal
  siblings always receive the same decision and the field is inert in
  the duplicate-free pruner model `prune_pass` (claims C1/C4/C5, whose
  properties are insensitive to duplicates).  The density dict itself is
  keyed by bs4 tags, whose `__eq__`/`__hash__` are structural, so
  structurally identical siblings collapse onto one entry; `stripN`,
  `structEqN`, `calc_densityD` and `prune_passD` model this faithfully
  (claim C2).
- Python strings are `List Char`; character classes (`\s`, `\w`,
  `str.strip`) are modelled over their ASCII portions.
- The recursion of `main_content` is modelled with an explicit fuel
  argument; any fuel at least the tree depth is shown to give the same
  result (claim C5).
- The pruning coefficient `COEFF` is a parameter `coef : ℚ`; the float
  comparison `density[node] < sum(densities) * coef` is rendered in exact
  rational arithmetic, written in the cross-multiplied integer form
  `d * coef.den < s * coef.num` so that it evaluates in the kernel.  The
  equivalence with `(d : ℚ) < s * coef` is proved in `ltCoefMul_iff`.
-/

mutual

/-- A node of the parsed tree: bs4 `NavigableString` or `Tag`. -/
inductive HNode where
  | text (s : String)
  | elem (id : Nat) (tag : String) (children : HForest)

/-- An ordered list of sibling nodes (a `contents` value). -/
inductive HForest where
  | nil
  | cons (c : HNode) (cs : HForest)

end

namespace HForest

/-- View a forest as an ordinary list of nodes. -/
def toList : HForest → List HNode
  | .nil => []
  | .cons c cs => c :: toList cs

/-- Build a forest from an ordinary list of nodes. -/
def ofList : List HNode → HForest
  | [] => .nil
  | c :: cs => .cons c (ofList cs)

/-- Filter a forest by a predicate on nodes. -/
def filterF (p : HNode → Bool) : HForest → HForest
  | .nil => .nil
  | .cons c cs => if p c then .cons c (filterF p cs) else filterF p cs

/-- Map a function over a forest. -/
def mapF (f : HNode → HNode) : HForest → HForest
  | .nil => .nil
  | .cons c cs => .cons (f c) (mapF f cs)

/-- Number of nodes in a forest. -/
def lengthF : HForest → Nat
  | .nil => 0
  | .cons _ cs => lengthF cs + 1

theorem toList_ofList : ∀ l : List HNode, toList (ofList l) = l
  | [] => rfl
  | c :: cs => by simp [toList, ofList, toList_ofList cs]

theorem toList_filterF (p : HNode → Bool) :
    ∀ cs : HForest, toList (filterF p cs) = (toList cs).filter p
  | .nil => rfl
  | .cons c cs => by
    by_cases h : p c <;> simp [toList, filterF, h, toList_filterF p cs]

theorem toList_mapF (f : HNode → HNode) :
    ∀ cs : HForest, toList (mapF f cs) = (toList cs).map f
  | .nil => rfl
  | .cons c cs => by simp [toList, mapF, toList_mapF f cs]

theorem lengthF_eq : ∀ cs : HForest, lengthF cs = (toList cs).length
  | .nil => rfl
  | .cons c cs => by simp [lengthF, toList, lengthF_eq cs]

theorem toList_eq_nil_iff : ∀ cs : HForest, toList cs = [] ↔ cs = .nil
  | .nil => by simp [toList]
  | .cons c cs => by simp [toList]

end HForest

namespace HNode

mutual

/-- Structural (object-value) equality test on nodes. -/
def beqN : HNode → HNode → Bool
  | .text s, .text s2 => s == s2
  | .elem i t cs, .elem i2 t2 cs2 => i == i2 && t == t2 && beqF cs cs2
  | _, _ => false

/-- Structural equality test on forests. -/
def beqF : HForest → HForest → Bool
  | .nil, .nil => true
  | .cons c cs, .cons d ds => beqN c d && beqF cs ds
  | _, _ => false

end

mutual

theorem beqN_iff : ∀ a b : HNode, beqN a b = true ↔ a = b
  | .text _, .text _ => by simp [beqN]
  | .text _, .elem _ _ _ => by simp [beqN]
  | .elem _ _ _, .text _ => by simp [beqN]
  | .elem i t cs, .elem j u ds => by
    simp [beqN, beqF_iff cs ds]; tauto

theorem beqF_iff : ∀ a b : HForest, beqF a b = true ↔ a = b
  | .nil, .nil => by simp [beqF]
  | .nil, .cons _ _ => by simp [beqF]
  | .cons _ _, .nil => by simp [beqF]
  | .cons c cs, .cons d ds => by
    simp [beqF, beqN_iff c d, beqF_iff cs ds]

end

instance : DecidableEq HNode := fun a b => decidable_of_iff _ (beqN_iff a b)

instance : DecidableEq HForest := fun a b => decidable_of_iff _ (beqF_iff a b)

/-- Tag name of a node (`node.name`); text nodes have none. -/
def tagOf : HNode → String
  | .text _ => ""
  | .elem _ t _ => t

/-- Is the node a Tag (as opposed to a NavigableString)? -/
def isElem : HNode → Bool
  | .text _ => false
  | .elem _ _ _ => true

/-- The `contents` of a node (empty for a NavigableString). -/
def children : HNode → HForest
  | .text _ => .nil
  | .elem _ _ cs => cs

mutual

/-- `Parser._calc_depth`: 0 for a node without a nonempty `contents`
attribute (every NavigableString, and childless Tags), otherwise 1 + the
maximum of the depths of ALL `contents` members, text children included
(`max([self._calc_depth(child) for child in node.contents]) + 1`). -/
def calc_depth : HNode → Nat
  | .text _ => 0
  | .elem _ _ .nil => 0
  | .elem _ _ (.cons c cs) => depFMax (.cons c cs) + 1

/-- Maximum of the depths of a forest's members (0 for the empty forest;
on the nonempty forests where the source takes `max(...)`, the extra 0
base point is absorbed since depths are naturals). -/
def depFMax : HForest → Nat
  | .nil => 0
  | .cons c cs => max (calc_depth c) (depFMax cs)

end

mutual

/-- Number of element nodes carrying tag `tg` in the subtree of a node,
the node itself included. -/
def countTagN (tg : String) : HNode → Nat
  | .text _ => 0
  | .elem _ t cs => (if t = tg then 1 else 0) + countTagF tg cs

/-- Number of element nodes carrying tag `tg` in a forest. -/
def countTagF (tg : String) : HForest → Nat
  | .nil => 0
  | .cons c cs => countTagN tg c + countTagF tg cs

end

/-- `node.h1` truthiness: an `h1` Tag exists among the strict descendants
(`find` searches descendants only). -/
def hasH1desc (n : HNode) : Bool :=
  decide (0 < countTagF "h1" n.children)

/-- `len(node.find_all('p'))`: number of `p` Tags among the strict
descendants. -/
def countPdesc (n : HNode) : Nat :=
  countTagF "p" n.children

end HNode

/-- Maximum of a list of naturals (with base point 0). -/
def listMax (l : List Nat) : Nat := l.foldr max 0

namespace HNode

theorem depFMax_eq_listMax :
    ∀ cs : HForest, depFMax cs = listMax ((cs.toList).map calc_depth)
  | .nil => rfl
  | .cons c cs => by
    simp [depFMax, HForest.toList, listMax, depFMax_eq_listMax cs]

theorem calc_depth_elem_ne_nil {i : Nat} {t : String} {cs : HForest}
    (h : cs ≠ .nil) :
    calc_depth (.elem i t cs) = listMax ((cs.toList).map calc_depth) + 1 := by
  cases cs with
  | nil => exact absurd rfl h
  | cons c cs => rw [calc_depth, depFMax_eq_listMax]

theorem calc_depth_of_not_isElem {c : HNode} (h : isElem c = false) :
    calc_depth c = 0 := by
  cases c with
  | text s => rfl
  | elem i t cs => simp [isElem] at h

theorem listMax_filter_isElem_of_empty :
    ∀ l : List HNode, l.filter isElem = [] → listMax (l.map calc_depth) = 0
  | [], _ => rfl
  | c :: cs, h => by
    rw [List.filter_cons] at h
    by_cases hc : isElem c = true
    · rw [if_pos hc] at h; exact (List.cons_ne_nil _ _ h).elim
    · rw [if_neg hc] at h
      have hc0 : isElem c = false := by
        revert hc; cases isElem c <;> simp
      have ih := listMax_filter_isElem_of_empty cs h
      simp only [listMax] at ih
      simp [listMax, calc_depth_of_not_isElem hc0, ih]

theorem listMax_map_filter_isElem :
    ∀ l : List HNode, l.filter isElem ≠ [] →
      listMax (l.map calc_depth) = listMax ((l.filter isElem).map calc_depth)
  | [], h => by simp at h
  | c :: cs, h => by
    rw [List.filter_cons] at h ⊢
    by_cases hc : isElem c = true
    · rw [if_pos hc] at h ⊢
      by_cases htl : cs.filter isElem = []
      · have ih := listMax_filter_isElem_of_empty cs htl
        simp only [listMax] at ih
        simp [listMax, htl, ih]
      · have ih := listMax_map_filter_isElem cs htl
        simp only [listMax] at ih
        simp [listMax, ih]
    · rw [if_neg hc] at h ⊢
      have hc0 : isElem c = false := by
        revert hc; cases isElem c <;> simp
      have ih := listMax_map_filter_isElem cs h
      simp only [listMax] at ih
      simp [listMax, calc_depth_of_not_isElem hc0, ih]

end HNode

open HNode HForest

/-- `Parser._calc_density` in the duplicate-free model: the per-sibling
depth dictionary built by the
`for node in nodes: node_density.update({node: density})` loop, as an
insertion-ordered association list keyed by the node.  Each sibling gets
its own entry here; the program's dict collapses structurally identical
siblings (bs4 tags hash structurally) — `calc_densityD` models that
faithfully (claim C2), and the two agree on duplicate-free sibling
sets. -/
def calc_density : HForest → List (HNode × Nat)
  | .nil => []
  | .cons c cs => (c, HNode.calc_depth c) :: calc_density cs

/-- Dictionary lookup `density[node]` (value of the first entry whose key
equals the node). -/
def densityLookup (density : List (HNode × Nat)) (node : HNode) : Nat :=
  match density with
  | [] => 0
  | p :: rest => if p.1 = node then p.2 else densityLookup rest node

/-- The float comparison `density[node] < avg` of the source, where
`avg = sum(density.values()) * coef`, in exact rational arithmetic; it is
written in cross-multiplied integer form so that the kernel can evaluate
it, and `ltCoefMul_iff` identifies it with `(dval : ℚ) < total * coef`. -/
def ltCoefMul (dval total : Nat) (coef : ℚ) : Bool :=
  decide ((dval : ℤ) * (coef.den : ℤ) < (total : ℤ) * coef.num)

theorem ltCoefMul_iff (d t : Nat) (coef : ℚ) :
    ltCoefMul d t coef = true ↔ (d : ℚ) < (t : ℚ) * coef := by
  rw [ltCoefMul, decide_eq_true_eq]
  have hden : (0 : ℚ) < (coef.den : ℚ) := by exact_mod_cast coef.den_pos
  have key : ((d : ℚ) < (t : ℚ) * coef) ↔
      ((d : ℚ) * (coef.den : ℚ) < (t : ℚ) * (coef.num : ℚ)) := by
    conv_lhs => rw [← Rat.num_div_den coef]
    rw [← mul_div_assoc, lt_div_iff₀ hden]
  rw [key]
  constructor
  · intro h
    exact_mod_cast h
  · intro h
    exact_mod_cast h

/-- One removal decision of the inner loop of `main_content`: the chain of
`continue` guards for `p`/`h1`/`h2` tags, `node.h1`, and (under `forced`)
`len(node.find_all('p')) > 3`, followed by the `density[node] < avg`
comparison that triggers `node.decompose()`. -/
def should_remove (forced : Bool) (coef : ℚ) (total dval : Nat)
    (node : HNode) : Bool :=
  if node.tagOf = "p" ∨ node.tagOf = "h1" ∨ node.tagOf = "h2" then false
  else if node.hasH1desc then false
  else if forced = true ∧ 3 < node.countPdesc then false
  else ltCoefMul dval total coef

/-- `childs = node.find_all(True, recursive=False)`: the element
children of a contents list. -/
def elemChilds (cs : HForest) : HForest := cs.filterF HNode.isElem

/-- `sum(density.values())` over the fresh density of the element
children, in the duplicate-free model: every sibling's depth is counted;
the program's dict counts each structural class once (`pruneTotalD`,
claim C2), and the two agree on duplicate-free sibling sets. -/
def pruneTotal (cs : HForest) : Nat :=
  ((calc_density (elemChilds cs)).map (fun p => p.2)).sum

/-- The children of the key list `keys = list(density.keys())` on which
the loop body reaches `node.decompose()`, in the duplicate-free model
where every element child is a key; in the program only the first
occurrence of each structural class is (`pruneKeepD`, claim C2), and the
two agree on duplicate-free sibling sets. -/
def pruneRemoved (forced : Bool) (coef : ℚ) (cs : HForest) : List HNode :=
  ((calc_density (elemChilds cs)).map (fun p => p.1)).filter
    (fun node => should_remove forced coef (pruneTotal cs)
      (densityLookup (calc_density (elemChilds cs)) node) node)

/-- Lines 165-190 of `main_content`, for one node of the passed density
dict: recompute the element children (`find_all(True, recursive=False)`)
and their fresh density, form the threshold from
`sum(density.values()) * coef`, and decompose every child of the key list
that `should_remove` selects.  Text children are never decomposed. -/
def prune_pass (forced : Bool) (coef : ℚ) : HNode → HNode
  | .text s => .text s
  | .elem i t cs =>
    .elem i t (cs.filterF
      (fun c => !(HNode.isElem c && decide (c ∈ pruneRemoved forced coef cs))))

/-- One sweep of the trailing recursion loop
`for node in density.keys(): self.main_content(density, ...)` over a
node's children: each surviving child is processed once; a decomposed
child's stale dict key yields empty loops, a no-op. -/
def procChildren (f : HNode → HNode) : HNode → HNode
  | .text s => .text s
  | .elem i t cs => .elem i t (cs.mapF f)

/-- Processing of one key of a passed density dict by the body of
`main_content`: prune the node's children, then run one sweep per
pre-prune element child (the recursion loop passes the same child dict
once per key).  `fuel` bounds the recursion depth; by
`c5_termination`, any fuel at least the node's depth gives the same
result. -/
def procNode (forced : Bool) (coef : ℚ) : Nat → HNode → HNode
  | 0, n => n
  | fuel + 1, n =>
    match n with
    | .text s => .text s
    | .elem i t cs =>
      let k := (cs.filterF HNode.isElem).lengthF
      (procChildren (procNode forced coef fuel))^[k]
        (prune_pass forced coef (.elem i t cs))

/-- One full execution of the `for node in density.keys()` body of
`main_content` over the root's child dict `D0`: process each element
child of the root (text children are fixed by `procNode`). -/
def main_body (forced : Bool) (coef : ℚ) (fuel : Nat) (root : HNode) : HNode :=
  procChildren (procNode forced coef fuel) root

/-- `Parser.main_content(soup=root, forced=forced)`: the initial call
(density=None) computes the root's child density `D0`, runs itself
recursively on `D0` (line 160), then falls through and runs the same body
over `D0` a second time. -/
def main_content (forced : Bool) (coef : ℚ) (fuel : Nat) (root : HNode) : HNode :=
  main_body forced coef fuel (main_body forced coef fuel root)

/-- C3 counterexample: the claim says a text-only node has depth 0, but
`_calc_depth` recurses over ALL `contents` members, so
`<div>hi</div>` (one text child) has depth 1, not 0. -/
theorem c3_counterexample :
    calc_depth (.elem 0 "div" (.cons (.text "hi") .nil)) = 1 ∧
    ¬ calc_depth (.elem 0 "div" (.cons (.text "hi") .nil)) = 0 := by
  decide

/-- C3 (amended): depth is 0 exactly for nodes with no contents at all
(text nodes and childless element nodes); a node with any contents has
depth 1 + the maximum depth over ALL its children, text children
included (each contributing 0) — so a text-only node has depth 1; and
when element children exist the value coincides with 1 + the maximum
depth over the element children, since text children contribute 0. -/
theorem c3_depth_characterization :
    (∀ s, calc_depth (.text s) = 0) ∧
    (∀ i t, calc_depth (.elem i t .nil) = 0) ∧
    (∀ i t cs, cs ≠ .nil →
      calc_depth (.elem i t cs) = listMax ((cs.toList).map calc_depth) + 1) ∧
    (∀ i t cs, (cs.toList).filter HNode.isElem ≠ [] →
      calc_depth (.elem i t cs)
        = listMax (((cs.toList).filter HNode.isElem).map calc_depth) + 1) := by
  refine ⟨fun s => rfl, fun i t => rfl,
    fun i t cs h => HNode.calc_depth_elem_ne_nil h, fun i t cs h => ?_⟩
  have hne : cs ≠ .nil := by
    intro he
    subst he
    simp [HForest.toList] at h
  rw [HNode.calc_depth_elem_ne_nil hne, HNode.listMax_map_filter_isElem _ h]

/-- Witness for `c3_depth_characterization` at `<d><p></p>x</d>`. -/
theorem c3_witness :
    calc_depth (.elem 0 "d" (.cons (.elem 1 "p" .nil) (.cons (.text "x") .nil)))
      = listMax ((((HForest.cons (HNode.elem 1 "p" .nil)
          (.cons (.text "x") .nil)).toList).filter HNode.isElem).map calc_depth) + 1 :=
  c3_depth_characterization.2.2.2 0 "d" _ (by decide)


theorem calc_density_map_snd :
    ∀ cs : HForest, (calc_density cs).map (fun p => p.2) = cs.toList.map calc_depth
  | .nil => rfl
  | .cons c cs => by simp [calc_density, toList, calc_density_map_snd cs]

theorem calc_density_map_fst :
    ∀ cs : HForest, (calc_density cs).map (fun p => p.1) = cs.toList
  | .nil => rfl
  | .cons c cs => by simp [calc_density, toList, calc_density_map_fst cs]

theorem densityLookup_calc_density :
    ∀ (cs : HForest) (c : HNode), c ∈ cs.toList →
      densityLookup (calc_density cs) c = calc_depth c
  | .nil, c, h => by simp [toList] at h
  | .cons d ds, c, h => by
    rw [calc_density, densityLookup]
    by_cases hd : d = c
    · rw [if_pos hd, hd]
    · rw [if_neg hd]
      rcases List.mem_cons.mp h with h | h
      · exact absurd h.symm hd
      · exact densityLookup_calc_density ds c h

/-- The three `continue` guards of the removal loop, as one predicate:
a `p`/`h1`/`h2` tag, an `h1` descendant, or (under forced mode) more than
3 `p` descendants. -/
def pruneExempt (forced : Bool) (c : HNode) : Prop :=
  tagOf c = "p" ∨ tagOf c = "h1" ∨ tagOf c = "h2" ∨ hasH1desc c = true ∨
    (forced = true ∧ 3 < countPdesc c)

instance (forced : Bool) (c : HNode) : Decidable (pruneExempt forced c) := by
  unfold pruneExempt; infer_instance

theorem should_remove_of_exempt {forced : Bool} {c : HNode}
    (coef : ℚ) (total dval : Nat) (hex : pruneExempt forced c) :
    should_remove forced coef total dval c = false := by
  unfold should_remove
  by_cases h1 : tagOf c = "p" ∨ tagOf c = "h1" ∨ tagOf c = "h2"
  · rw [if_pos h1]
  · rw [if_neg h1]
    by_cases h2 : hasH1desc c = true
    · simp [h2]
    · simp only [Bool.not_eq_true] at h2
      rw [h2]
      simp only [Bool.false_eq_true, if_false]
      by_cases h3 : forced = true ∧ 3 < countPdesc c
      · rw [if_pos h3]
      · rcases hex with h | h | h | h | h
        · exact absurd (Or.inl h) h1
        · exact absurd (Or.inr (Or.inl h)) h1
        · exact absurd (Or.inr (Or.inr h)) h1
        · exact absurd h (by rw [h2]; simp)
        · exact absurd h h3

theorem should_remove_of_not_exempt {forced : Bool} {c : HNode}
    (coef : ℚ) (total dval : Nat) (hex : ¬ pruneExempt forced c) :
    should_remove forced coef total dval c = ltCoefMul dval total coef := by
  unfold should_remove
  rw [if_neg, if_neg, if_neg]
  · intro h3
    exact hex (Or.inr (Or.inr (Or.inr (Or.inr h3))))
  · intro h2
    exact hex (Or.inr (Or.inr (Or.inr (Or.inl h2))))
  · intro h1
    rcases h1 with h | h | h
    · exact hex (Or.inl h)
    · exact hex (Or.inr (Or.inl h))
    · exact hex (Or.inr (Or.inr (Or.inl h)))

theorem mem_pruneRemoved {forced : Bool} {coef : ℚ} {cs : HForest} {c : HNode} :
    c ∈ pruneRemoved forced coef cs ↔
      c ∈ (elemChilds cs).toList ∧
        should_remove forced coef (pruneTotal cs)
          (densityLookup (calc_density (elemChilds cs)) c) c = true := by
  rw [pruneRemoved, List.mem_filter, calc_density_map_fst]

theorem mem_prune_pass_children {forced : Bool} {coef : ℚ} {i : Nat}
    {t : String} {cs : HForest} {c : HNode} :
    c ∈ ((prune_pass forced coef (.elem i t cs)).children).toList ↔
      c ∈ cs.toList ∧
        ¬ (isElem c = true ∧ c ∈ pruneRemoved forced coef cs) := by
  rw [prune_pass, children, HForest.toList_filterF, List.mem_filter]
  simp
  intro _
  by_cases hel : isElem c = true
  · simp [hel]
  · have hel0 : isElem c = false := by revert hel; cases isElem c <;> simp
    simp [hel0]

/-- The configuration constant `COEFF = 0.5`, as an exact rational. -/
def coefHalf : ℚ := ⟨1, 2, by decide, Nat.coprime_one_left 2⟩

mutual

/-- Identity-erasure on a node: what remains is exactly the information
compared by bs4 `Tag.__eq__` at this model's abstraction level (tag name
and contents, recursively; NavigableStrings by their text). -/
def stripN : HNode → HNode
  | .text s => .text s
  | .elem _ t cs => .elem 0 t (stripF cs)

/-- Identity-erasure on forests. -/
def stripF : HForest → HForest
  | .nil => .nil
  | .cons c cs => .cons (stripN c) (stripF cs)

end

/-- bs4 structural equality of nodes: `Tag.__eq__` compares name and
contents recursively and `Tag.__hash__` hashes the rendered markup, so
dict keys compare by the identity-stripped tree. -/
def structEqN (a b : HNode) : Bool := decide (stripN a = stripN b)

mutual

theorem calc_depth_stripN : ∀ n : HNode, calc_depth (stripN n) = calc_depth n
  | .text _ => rfl
  | .elem _ _ .nil => rfl
  | .elem i t (.cons c cs) => by
    show depFMax (.cons (stripN c) (stripF cs)) + 1 = depFMax (.cons c cs) + 1
    rw [depFMax, depFMax, calc_depth_stripN c, depFMax_stripF cs]

theorem depFMax_stripF : ∀ cs : HForest, depFMax (stripF cs) = depFMax cs
  | .nil => rfl
  | .cons c cs => by
    rw [stripF, depFMax, depFMax, calc_depth_stripN c, depFMax_stripF cs]

end

theorem calc_depth_structEq {a b : HNode} (h : structEqN a b = true) :
    calc_depth a = calc_depth b := by
  rw [structEqN, decide_eq_true_eq] at h
  rw [← calc_depth_stripN a, ← calc_depth_stripN b, h]

theorem structEqN_refl (n : HNode) : structEqN n n = true := by
  rw [structEqN, decide_eq_true_eq]

/-- One `dict.update({k: v})` step on the density dict.  bs4 tags hash
and compare structurally, so an entry whose key is structurally equal to
`k` is overwritten in place — the stored key object and its position are
kept, only the value changes; otherwise the new pair is appended. -/
def dictInsert (k : HNode) (v : Nat) : List (HNode × Nat) → List (HNode × Nat)
  | [] => [(k, v)]
  | p :: rest =>
    if structEqN p.1 k then (p.1, v) :: rest
    else p :: dictInsert k v rest

/-- The loop of `_calc_density`
(`for node in nodes: node_density.update({node: self._calc_depth(node)})`)
with an accumulating dict. -/
def calc_densityGo (acc : List (HNode × Nat)) : List HNode → List (HNode × Nat)
  | [] => acc
  | n :: rest => calc_densityGo (dictInsert n (calc_depth n) acc) rest

/-- `Parser._calc_density` with faithful dict-key semantics: structurally
identical nodes collapse onto the first occurrence's key object. -/
def calc_densityD (nodes : List HNode) : List (HNode × Nat) :=
  calc_densityGo [] nodes

/-- `sum(density.values())`. -/
def densitySumD (d : List (HNode × Nat)) : Nat := (d.map Prod.snd).sum

/-- `density[node]`: dict lookup by structural key equality. -/
def densityLookupD (d : List (HNode × Nat)) (node : HNode) : Nat :=
  match d.find? (fun p => structEqN p.1 node) with
  | some p => p.2
  | none => 0

/-- `sum(density.values())` over the faithful density of the element
children: one depth per structural class of siblings, not per sibling. -/
def pruneTotalD (cs : HForest) : Nat :=
  densitySumD (calc_densityD (elemChilds cs).toList)

/-- First occurrences of each structural class, in order (`seen` holds
the representatives already keyed): the key list of the faithful dict. -/
def dedupGo (seen : List HNode) : List HNode → List HNode
  | [] => []
  | c :: rest =>
    if seen.any (fun d => structEqN d c) then dedupGo seen rest
    else c :: dedupGo (c :: seen) rest

/-- `list(density.keys())` of the faithful dict over `l`. -/
def dedupD (l : List HNode) : List HNode := dedupGo [] l

/-- The children surviving the removal loop of `main_content` under
faithful dict semantics: a child is decomposed iff it is a dict key — the
first occurrence of its structural class among the element children,
`seen` holding the earlier representatives — on which `should_remove`
fires; `node.decompose()` removes exactly that key object, so a shadowed
structural duplicate always survives. -/
def pruneKeepD (forced : Bool) (coef : ℚ) (total : Nat)
    (density : List (HNode × Nat)) (seen : List HNode) :
    List HNode → List HNode
  | [] => []
  | c :: rest =>
    if HNode.isElem c && !(seen.any (fun d => structEqN d c)) then
      if should_remove forced coef total (densityLookupD density c) c then
        pruneKeepD forced coef total density (c :: seen) rest
      else c :: pruneKeepD forced coef total density (c :: seen) rest
    else c :: pruneKeepD forced coef total density seen rest

/-- Lines 165-190 of `main_content` for one node, with the faithful
dict-key collapse of bs4 structural hashing: fresh density over the
element children with duplicate structures collapsed onto the first
occurrence, threshold from the collapsed value sum, and decomposition of
the dict keys that `should_remove` selects. -/
def prune_passD (forced : Bool) (coef : ℚ) : HNode → HNode
  | .text s => .text s
  | .elem i t cs =>
    .elem i t (HForest.ofList
      (pruneKeepD forced coef (pruneTotalD cs)
        (calc_densityD (elemChilds cs).toList) [] cs.toList))

theorem dictInsert_map_fst (k : HNode) (v : Nat) :
    ∀ d : List (HNode × Nat),
      (dictInsert k v d).map Prod.fst =
        if d.any (fun p => structEqN p.1 k) then d.map Prod.fst
        else d.map Prod.fst ++ [k]
  | [] => by simp [dictInsert]
  | p :: rest => by
    rw [dictInsert]
    by_cases h : structEqN p.1 k = true
    · simp [h]
    · have h0 : structEqN p.1 k = false := by
        revert h; cases structEqN p.1 k <;> simp
      rw [if_neg (by rw [h0]; exact Bool.false_ne_true)]
      simp only [List.map_cons, List.any_cons, h0, Bool.false_or]
      rw [dictInsert_map_fst k v rest]
      by_cases h2 : rest.any (fun p => structEqN p.1 k) = true
      · simp [h2]
      · simp [h2]

theorem dictInsert_snd (k : HNode) :
    ∀ d : List (HNode × Nat), (∀ p ∈ d, p.2 = calc_depth p.1) →
      ∀ p ∈ dictInsert k (calc_depth k) d, p.2 = calc_depth p.1
  | [], _ => by
    intro p hp
    simp only [dictInsert, List.mem_singleton] at hp
    subst hp
    rfl
  | q :: rest, hinv => by
    intro p hp
    rw [dictInsert] at hp
    by_cases h : structEqN q.1 k = true
    · rw [if_pos h] at hp
      rcases List.mem_cons.mp hp with h1 | h2
      · rw [h1]
        exact (calc_depth_structEq h).symm
      · exact hinv p (List.mem_cons_of_mem q h2)
    · rw [if_neg h] at hp
      rcases List.mem_cons.mp hp with h1 | h2
      · rw [h1]
        exact hinv q (List.mem_cons_self q rest)
      · exact dictInsert_snd k rest
          (fun r hr => hinv r (List.mem_cons_of_mem q hr)) p h2

theorem calc_densityGo_snd :
    ∀ (l : List HNode) (acc : List (HNode × Nat)),
      (∀ p ∈ acc, p.2 = calc_depth p.1) →
      ∀ p ∈ calc_densityGo acc l, p.2 = calc_depth p.1
  | [], _, hinv => hinv
  | n :: rest, acc, hinv =>
    calc_densityGo_snd rest _ (dictInsert_snd n acc hinv)

theorem dedupGo_congr :
    ∀ (l s1 s2 : List HNode),
      (∀ x, s1.any (fun d => structEqN d x) = s2.any (fun d => structEqN d x)) →
      dedupGo s1 l = dedupGo s2 l
  | [], _, _, _ => rfl
  | c :: rest, s1, s2, h => by
    rw [dedupGo, dedupGo, h c]
    by_cases hc : s2.any (fun d => structEqN d c) = true
    · rw [if_pos hc, if_pos hc]
      exact dedupGo_congr rest s1 s2 h
    · rw [if_neg hc, if_neg hc]
      rw [dedupGo_congr rest (c :: s1) (c :: s2)
        (fun x => by simp only [List.any_cons, h x])]

theorem calc_densityGo_fst :
    ∀ (l : List HNode) (acc : List (HNode × Nat)),
      (calc_densityGo acc l).map Prod.fst =
        acc.map Prod.fst ++ dedupGo (acc.map Prod.fst) l
  | [], acc => by simp [calc_densityGo, dedupGo]
  | n :: rest, acc => by
    rw [calc_densityGo, dedupGo]
    have hcond : (acc.map Prod.fst).any (fun d => structEqN d n)
        = acc.any (fun p => structEqN p.1 n) := by
      induction acc with
      | nil => rfl
      | cons q qs ih => simp only [List.map_cons, List.any_cons, ih]
    rw [hcond, calc_densityGo_fst rest (dictInsert n (calc_depth n) acc),
      dictInsert_map_fst]
    by_cases h : acc.any (fun p => structEqN p.1 n) = true
    · rw [if_pos h, if_pos h]
    · rw [if_neg h, if_neg h]
      rw [List.append_assoc, List.singleton_append]
      rw [dedupGo_congr rest (acc.map Prod.fst ++ [n]) (n :: acc.map Prod.fst)
        (fun x => by
          simp only [List.any_append, List.any_cons, List.any_nil,
            Bool.or_false, Bool.false_or, Bool.or_comm])]

theorem map_snd_eq_depths :
    ∀ d : List (HNode × Nat), (∀ p ∈ d, p.2 = calc_depth p.1) →
      d.map Prod.snd = (d.map Prod.fst).map calc_depth
  | [], _ => rfl
  | p :: rest, h => by
    simp only [List.map_cons]
    rw [h p (List.mem_cons_self p rest),
      map_snd_eq_depths rest (fun q hq => h q (List.mem_cons_of_mem p hq))]

theorem pruneTotalD_eq (cs : HForest) :
    pruneTotalD cs = ((dedupD (elemChilds cs).toList).map calc_depth).sum := by
  rw [pruneTotalD, densitySumD, calc_densityD]
  rw [map_snd_eq_depths _ (calc_densityGo_snd (elemChilds cs).toList []
    (by simp))]
  rw [calc_densityGo_fst]
  simp [dedupD]

theorem dedupGo_subset :
    ∀ (l seen : List HNode) (c : HNode), c ∈ dedupGo seen l → c ∈ l
  | [], _, c, h => absurd h (List.not_mem_nil c)
  | d :: rest, seen, c, h => by
    rw [dedupGo] at h
    by_cases hd : (seen.any (fun e => structEqN e d)) = true
    · rw [if_pos hd] at h
      exact List.mem_cons_of_mem d (dedupGo_subset rest seen c h)
    · rw [if_neg hd] at h
      rcases List.mem_cons.mp h with h1 | h2
      · exact h1 ▸ List.mem_cons_self d rest
      · exact List.mem_cons_of_mem d (dedupGo_subset rest (d :: seen) c h2)

theorem pruneKeepD_subset (forced : Bool) (coef : ℚ) (total : Nat)
    (density : List (HNode × Nat)) :
    ∀ (l seen : List HNode) (c : HNode),
      c ∈ pruneKeepD forced coef total density seen l → c ∈ l
  | [], _, c, h => absurd h (List.not_mem_nil c)
  | d :: rest, seen, c, h => by
    rw [pruneKeepD] at h
    by_cases h1 : (HNode.isElem d && !(seen.any (fun e => structEqN e d))) = true
    · rw [if_pos h1] at h
      by_cases h2 : should_remove forced coef total (densityLookupD density d) d
          = true
      · rw [if_pos h2] at h
        exact List.mem_cons_of_mem d
          (pruneKeepD_subset forced coef total density rest (d :: seen) c h)
      · rw [if_neg h2] at h
        rcases List.mem_cons.mp h with h3 | h4
        · exact h3 ▸ List.mem_cons_self d rest
        · exact List.mem_cons_of_mem d
            (pruneKeepD_subset forced coef total density rest (d :: seen) c h4)
    · rw [if_neg h1] at h
      rcases List.mem_cons.mp h with h3 | h4
      · exact h3 ▸ List.mem_cons_self d rest
      · exact List.mem_cons_of_mem d
          (pruneKeepD_subset forced coef total density rest seen c h4)

theorem dictInsert_cover (k : HNode) (v : Nat) :
    ∀ d : List (HNode × Nat),
      ∃ p ∈ dictInsert k v d, structEqN p.1 k = true
  | [] => ⟨(k, v), List.mem_singleton.mpr rfl, structEqN_refl k⟩
  | q :: rest => by
    rw [dictInsert]
    by_cases h : structEqN q.1 k = true
    · rw [if_pos h]
      exact ⟨(q.1, v), List.mem_cons_self _ _, h⟩
    · rw [if_neg h]
      obtain ⟨p, hp, hpk⟩ := dictInsert_cover k v rest
      exact ⟨p, List.mem_cons_of_mem q hp, hpk⟩

theorem dictInsert_mono (k : HNode) (v : Nat) (x : HNode) :
    ∀ d : List (HNode × Nat),
      (∃ p ∈ d, structEqN p.1 x = true) →
      ∃ p ∈ dictInsert k v d, structEqN p.1 x = true
  | [], h => absurd h.choose_spec.1 (List.not_mem_nil _)
  | q :: rest, h => by
    obtain ⟨p, hp, hpx⟩ := h
    rw [dictInsert]
    by_cases hqk : structEqN q.1 k = true
    · rw [if_pos hqk]
      rcases List.mem_cons.mp hp with h1 | h2
      · rw [h1] at hpx
        exact ⟨(q.1, v), List.mem_cons_self _ _, hpx⟩
      · exact ⟨p, List.mem_cons_of_mem _ h2, hpx⟩
    · rw [if_neg hqk]
      rcases List.mem_cons.mp hp with h1 | h2
      · exact ⟨q, List.mem_cons_self _ _, h1 ▸ hpx⟩
      · obtain ⟨r, hr, hrx⟩ := dictInsert_mono k v x rest ⟨p, h2, hpx⟩
        exact ⟨r, List.mem_cons_of_mem q hr, hrx⟩

theorem calc_densityGo_cover (x : HNode) :
    ∀ (l : List HNode) (acc : List (HNode × Nat)),
      x ∈ l ∨ (∃ p ∈ acc, structEqN p.1 x = true) →
      ∃ p ∈ calc_densityGo acc l, structEqN p.1 x = true
  | [], acc, h => by
    rcases h with h1 | h2
    · exact absurd h1 (List.not_mem_nil x)
    · exact h2
  | n :: rest, acc, h => by
    rw [calc_densityGo]
    apply calc_densityGo_cover x rest
    rcases h with h1 | h2
    · rcases List.mem_cons.mp h1 with he | hr
      · right
        rw [he]
        exact dictInsert_cover n (calc_depth n) acc
      · exact Or.inl hr
    · exact Or.inr (dictInsert_mono n (calc_depth n) x acc h2)

theorem densityLookupD_calc (l : List HNode) (c : HNode) (hc : c ∈ l) :
    densityLookupD (calc_densityD l) c = calc_depth c := by
  obtain ⟨p, hp, hpc⟩ := calc_densityGo_cover c l [] (Or.inl hc)
  rw [densityLookupD]
  cases hfind : (calc_densityD l).find? (fun p => structEqN p.1 c) with
  | none =>
    have hsome : ((calc_densityD l).find? (fun p => structEqN p.1 c)).isSome := by
      rw [List.find?_isSome]
      exact ⟨p, hp, hpc⟩
    rw [hfind] at hsome
    cases hsome
  | some q =>
    have hq2 : q ∈ calc_densityD l := List.mem_of_find?_eq_some hfind
    have hqc : (fun r => structEqN r.1 c) q = true :=
      List.find?_some (p := fun r : HNode × Nat => structEqN r.1 c) hfind
    have hval : q.2 = calc_depth q.1 :=
      calc_densityGo_snd l [] (by simp) q hq2
    show q.2 = calc_depth c
    rw [hval, calc_depth_structEq hqc]

theorem pruneKeepD_not_mem_iff (forced : Bool) (coef : ℚ) (total : Nat)
    (density : List (HNode × Nat)) (c : HNode)
    (helem : HNode.isElem c = true)
    (hsr : should_remove forced coef total (densityLookupD density c) c
      = ltCoefMul (calc_depth c) total coef) :
    ∀ (l seen : List HNode), l.count c = 1 →
      (c ∉ pruneKeepD forced coef total density seen l ↔
        (c ∈ dedupGo seen (l.filter HNode.isElem) ∧
          ltCoefMul (calc_depth c) total coef = true))
  | [], seen, hcount => by simp at hcount
  | d :: rest, seen, hcount => by
    by_cases hdc : d = c
    · subst hdc
      rw [List.count_cons_self] at hcount
      have hnr : d ∉ rest := List.count_eq_zero.mp (by omega)
      rw [pruneKeepD, List.filter_cons, if_pos helem, dedupGo]
      by_cases hseen : (seen.any (fun e => structEqN e d)) = true
      · rw [if_neg (by simp [hseen]), if_pos hseen]
        constructor
        · intro h
          exact absurd (List.mem_cons_self d _) h
        · rintro ⟨h1, _⟩
          exact absurd
            (List.mem_of_mem_filter (dedupGo_subset _ _ _ h1)) hnr
      · have hseenf : (seen.any (fun e => structEqN e d)) = false := by
          revert hseen; cases (seen.any fun e => structEqN e d) <;> simp
        rw [if_pos (by rw [helem, hseenf]; rfl), if_neg hseen, hsr]
        by_cases hlt : ltCoefMul (calc_depth d) total coef = true
        · rw [if_pos hlt]
          constructor
          · intro _
            exact ⟨List.mem_cons_self d _, hlt⟩
          · intro _ hmem
            exact hnr
              (pruneKeepD_subset forced coef total density rest (d :: seen) d hmem)
        · rw [if_neg hlt]
          constructor
          · intro h
            exact absurd (List.mem_cons_self d _) h
          · rintro ⟨_, h2⟩
            exact absurd h2 hlt
    · have hcd : ¬ c = d := fun h => hdc h.symm
      have hcount2 : rest.count c = 1 := by
        rw [List.count_cons] at hcount
        simp only [beq_iff_eq, hdc, if_false, Nat.add_zero] at hcount
        exact hcount
      rw [pruneKeepD, List.filter_cons]
      by_cases hde : HNode.isElem d = true
      · rw [if_pos hde, dedupGo]
        by_cases hseen : (seen.any (fun e => structEqN e d)) = true
        · rw [if_neg (by simp [hseen]), if_pos hseen]
          rw [List.mem_cons, not_or]
          rw [pruneKeepD_not_mem_iff forced coef total density c helem hsr
            rest seen hcount2]
          simp [hcd]
        · have hseenf : (seen.any (fun e => structEqN e d)) = false := by
            revert hseen; cases (seen.any fun e => structEqN e d) <;> simp
          rw [if_pos (by rw [hde, hseenf]; rfl), if_neg hseen]
          by_cases hrem : should_remove forced coef total
              (densityLookupD density d) d = true
          · rw [if_pos hrem]
            rw [pruneKeepD_not_mem_iff forced coef total density c helem hsr
              rest (d :: seen) hcount2]
            rw [List.mem_cons]
            simp [hcd]
          · rw [if_neg hrem]
            rw [List.mem_cons, not_or, List.mem_cons]
            rw [pruneKeepD_not_mem_iff forced coef total density c helem hsr
              rest (d :: seen) hcount2]
            simp [hcd]
      · have hdef : HNode.isElem d = false := by
          revert hde; cases HNode.isElem d <;> simp
        rw [if_neg (by rw [hdef]; simp), if_neg (by rw [hdef]; simp)]
        rw [List.mem_cons, not_or]
        rw [pruneKeepD_not_mem_iff forced coef total density c helem hsr
          rest seen hcount2]
        simp [hcd]

/-- A sibling set with two structurally identical `div`s (ids 1, 2; both
render `<div><div></div></div>`) and a deeper third `div`. -/
def c2exCs : HForest :=
  .cons (.elem 1 "div" (.cons (.elem 11 "div" .nil) .nil))
    (.cons (.elem 2 "div" (.cons (.elem 21 "div" .nil) .nil))
      (.cons (.elem 3 "div"
        (.cons (.elem 4 "div" (.cons (.elem 5 "div" .nil) .nil)) .nil))
        .nil))

/-- Counterexample to C2 as stated: the density dict is keyed by bs4 tags,
which hash and compare structurally, so of two structurally identical
siblings only the first becomes a dict key.  In `c2exCs` under
coefficient 1/2 the duplicate `div` (id 2) is non-exempt and its depth 1
is strictly below the claimed threshold (half the per-sibling depth sum
4), yet the faithful pass keeps it — only its shadowing first occurrence
is decomposed; and the dict value sum (3, one depth per structural class)
differs from the per-sibling depth sum (4). -/
theorem c2_counterexample :
    ¬ pruneExempt false (HNode.elem 2 "div" (.cons (.elem 21 "div" .nil) .nil)) ∧
    ((calc_depth (HNode.elem 2 "div" (.cons (.elem 21 "div" .nil) .nil)) : ℚ) <
      coefHalf * (((elemChilds c2exCs).toList.map calc_depth).sum : ℚ)) ∧
    (HNode.elem 2 "div" (.cons (.elem 21 "div" .nil) .nil)) ∈
      ((prune_passD false coefHalf (.elem 0 "root" c2exCs)).children).toList ∧
    pruneTotalD c2exCs ≠ pruneTotal c2exCs := by
  refine ⟨by decide, ?_, by decide, by decide⟩
  have h1 : calc_depth (HNode.elem 2 "div" (.cons (.elem 21 "div" .nil) .nil))
      = 1 := by decide
  have h4 : ((elemChilds c2exCs).toList.map calc_depth).sum = 4 := by decide
  rw [h1, h4, mul_comm]
  exact (ltCoefMul_iff 1 4 coefHalf).mp (by decide)

/-- C2, amended: the density dict is keyed by bs4 tags, whose `__eq__`
and `__hash__` are structural, so structurally identical siblings
collapse onto the first occurrence's key.  For every sibling set, the
dict value sum — hence the removal threshold `sum * coef` — counts one
depth per structural class (the `dedupD` first representatives), and a
non-exempt element child occurring once in the children list is removed
iff it is a dict key (a member of `dedupD` of the element children) and
its depth is strictly below the coefficient times the collapsed sum;
later structural duplicates are never decomposed themselves. -/
theorem c2_amended (forced : Bool) (coef : ℚ) (i : Nat) (t : String)
    (cs : HForest) (c : HNode)
    (hc : c ∈ (elemChilds cs).toList) (hex : ¬ pruneExempt forced c)
    (honce : cs.toList.count c = 1) :
    pruneTotalD cs = ((dedupD (elemChilds cs).toList).map calc_depth).sum ∧
    (c ∉ ((prune_passD forced coef (.elem i t cs)).children).toList ↔
      (c ∈ dedupD (elemChilds cs).toList ∧
        (calc_depth c : ℚ) < coef * (pruneTotalD cs : ℚ))) := by
  have helem : HNode.isElem c = true := by
    rw [elemChilds, HForest.toList_filterF] at hc
    exact (List.mem_filter.mp hc).2
  have hlookup : densityLookupD (calc_densityD (elemChilds cs).toList) c
      = calc_depth c := densityLookupD_calc _ c hc
  have hsr : should_remove forced coef (pruneTotalD cs)
      (densityLookupD (calc_densityD (elemChilds cs).toList) c) c
      = ltCoefMul (calc_depth c) (pruneTotalD cs) coef := by
    rw [hlookup, should_remove_of_not_exempt coef _ _ hex]
  refine ⟨pruneTotalD_eq cs, ?_⟩
  rw [prune_passD, children, HForest.toList_ofList]
  rw [pruneKeepD_not_mem_iff forced coef (pruneTotalD cs)
    (calc_densityD (elemChilds cs).toList) c helem hsr cs.toList [] honce]
  rw [dedupD, elemChilds, HForest.toList_filterF, ltCoefMul_iff, mul_comm]

/-- A duplicate-free sibling set for the C2 witness: a childless `div`
next to a depth-1 `div`. -/
def c2wCs : HForest :=
  .cons (.elem 1 "div" .nil)
    (.cons (.elem 2 "div" (.cons (.elem 3 "div" .nil) .nil)) .nil)

/-- Witness for `c2_amended`: in `c2wCs` under coefficient 0.5 and forced
mode, the childless `div` (a dict key, depth 0, collapsed sum 1) is
characterised by the amended threshold and removal rule. -/
theorem c2_amended_witness :
    pruneTotalD c2wCs = ((dedupD (elemChilds c2wCs).toList).map calc_depth).sum ∧
    ((HNode.elem 1 "div" .nil) ∉
        ((prune_passD true coefHalf (.elem 0 "d" c2wCs)).children).toList ↔
      ((HNode.elem 1 "div" .nil) ∈ dedupD (elemChilds c2wCs).toList ∧
        (calc_depth (HNode.elem 1 "div" .nil) : ℚ) <
          coefHalf * (pruneTotalD c2wCs : ℚ))) :=
  c2_amended true coefHalf 0 "d" c2wCs (.elem 1 "div" .nil)
    (by decide) (by decide) (by decide)


theorem countTagN_h1_eq_zero_of_should_remove {forced : Bool} {coef : ℚ}
    {total dval : Nat} {c : HNode}
    (h : should_remove forced coef total dval c = true) :
    countTagN "h1" c = 0 := by
  unfold should_remove at h
  by_cases h1 : tagOf c = "p" ∨ tagOf c = "h1" ∨ tagOf c = "h2"
  · rw [if_pos h1] at h; cases h
  · rw [if_neg h1] at h
    by_cases h2 : hasH1desc c = true
    · rw [if_pos (by rw [h2])] at h
      cases h
    · have h2f : hasH1desc c = false := by
        revert h2; cases hasH1desc c <;> simp
      have hcount : countTagF "h1" c.children = 0 := by
        have := h2f
        rw [hasH1desc] at this
        simpa using this
      cases c with
      | text s => rfl
      | elem j u ds =>
        have hu : ¬ u = "h1" := fun he => h1 (Or.inr (Or.inl (by simp [tagOf, he])))
        simp only [children] at hcount
        simp [countTagN, hu, hcount]

theorem countTagF_filterF_keep (tg : String) (p : HNode → Bool) :
    ∀ cs : HForest, (∀ c ∈ cs.toList, p c = false → countTagN tg c = 0) →
      countTagF tg (cs.filterF p) = countTagF tg cs
  | .nil, _ => rfl
  | .cons c cs, h => by
    have hcs := countTagF_filterF_keep tg p cs
      (fun d hd hp => h d (show d ∈ c :: cs.toList from List.mem_cons_of_mem c hd) hp)
    by_cases hc : p c = true
    · simp [filterF, hc, countTagF, hcs]
    · have hc0 : p c = false := by revert hc; cases p c <;> simp
      have h0 := h c (List.mem_cons_self c cs.toList) hc0
      simp [filterF, hc0, countTagF, hcs, h0]

theorem countH1_prune_pass (forced : Bool) (coef : ℚ) (n : HNode) :
    countTagN "h1" (prune_pass forced coef n) = countTagN "h1" n := by
  cases n with
  | text s => rfl
  | elem i t cs =>
    rw [prune_pass]
    simp only [countTagN]
    congr 1
    apply countTagF_filterF_keep
    intro c _ hp
    have hand : isElem c = true ∧ c ∈ pruneRemoved forced coef cs := by
      revert hp
      by_cases hel : isElem c = true <;>
        by_cases hmem : c ∈ pruneRemoved forced coef cs <;>
          simp [hel, hmem]
    have := (mem_pruneRemoved.mp hand.2).2
    exact countTagN_h1_eq_zero_of_should_remove this

theorem countTagF_mapF (tg : String) (f : HNode → HNode)
    (hf : ∀ c, countTagN tg (f c) = countTagN tg c) :
    ∀ cs : HForest, countTagF tg (cs.mapF f) = countTagF tg cs
  | .nil => rfl
  | .cons c cs => by
    simp [mapF, countTagF, hf c, countTagF_mapF tg f hf cs]

theorem countH1_procChildren (f : HNode → HNode)
    (hf : ∀ c, countTagN "h1" (f c) = countTagN "h1" c) (n : HNode) :
    countTagN "h1" (procChildren f n) = countTagN "h1" n := by
  cases n with
  | text s => rfl
  | elem i t cs => simp [procChildren, countTagN, countTagF_mapF "h1" f hf cs]

theorem countH1_iterate (g : HNode → HNode)
    (hg : ∀ m, countTagN "h1" (g m) = countTagN "h1" m) :
    ∀ (k : Nat) (m : HNode), countTagN "h1" (g^[k] m) = countTagN "h1" m
  | 0, m => rfl
  | k + 1, m => by
    rw [Function.iterate_succ_apply, countH1_iterate g hg k (g m), hg m]

theorem countH1_procNode (forced : Bool) (coef : ℚ) :
    ∀ (fuel : Nat) (n : HNode),
      countTagN "h1" (procNode forced coef fuel n) = countTagN "h1" n
  | 0, n => rfl
  | fuel + 1, n => by
    cases n with
    | text s => rfl
    | elem i t cs =>
      rw [procNode]
      rw [countH1_iterate _ (countH1_procChildren _
        (fun c => countH1_procNode forced coef fuel c)) _ _]
      exact countH1_prune_pass forced coef _

/-- C1 counterexample: the tree `root > div > [div > p > "hi", div^5]`
holds one paragraph; pruning (forced on, COEFF = 0.5) decomposes the
paragraph's parent `div` (depth 2 < 3.5), detaching the `p` — so the
pruning operation does remove a paragraph node, contradicting the claim's
transitive reading of "removes". -/
def c1chain : Nat → HNode
  | 0 => .text "x"
  | n + 1 => .elem (20 + n) "div" (.cons (c1chain n) .nil)

def c1exTree : HNode :=
  .elem 0 "root" (.cons (.elem 1 "div" (.cons
    (.elem 2 "div" (.cons (.elem 3 "p" (.cons (.text "hi") .nil)) .nil))
    (.cons (c1chain 5) .nil))) .nil)

theorem c1_counterexample :
    countTagN "p" c1exTree = 1 ∧
    countTagN "p" (main_content true coefHalf 8 c1exTree) = 0 := by
  decide

/-- C1 (amended): at every sibling-set pruning pass, a node tagged
`p`/`h1`/`h2`, a node with an `h1` descendant, and (under forced mode) a
node with more than 3 `p` descendants are never themselves decomposed;
moreover `h1` nodes are never removed even transitively (the number of
`h1` elements is invariant under the whole pruning operation).  But a
`p`- or `h2`-tagged node CAN be detached as part of a removed ancestor's
subtree (`c1_counterexample`). -/
theorem c1_amended :
    (∀ (forced : Bool) (coef : ℚ) (i : Nat) (t : String) (cs : HForest)
        (c : HNode), c ∈ cs.toList → pruneExempt forced c →
        c ∈ ((prune_pass forced coef (.elem i t cs)).children).toList) ∧
    (∀ (forced : Bool) (coef : ℚ) (fuel : Nat) (root : HNode),
        countTagN "h1" (main_content forced coef fuel root)
          = countTagN "h1" root) := by
  constructor
  · intro forced coef i t cs c hmem hex
    rw [mem_prune_pass_children]
    refine ⟨hmem, ?_⟩
    rintro ⟨hel, hrem⟩
    have := (mem_pruneRemoved.mp hrem).2
    rw [should_remove_of_exempt coef _ _ hex] at this
    cases this
  · intro forced coef fuel root
    rw [main_content, main_body, main_body,
      countH1_procChildren _ (fun c => countH1_procNode forced coef fuel c),
      countH1_procChildren _ (fun c => countH1_procNode forced coef fuel c)]

/-- Witness for `c1_amended`: a `p` child survives a pruning pass. -/
theorem c1_witness :
    (HNode.elem 1 "p" .nil) ∈
      ((prune_pass true coefHalf (.elem 0 "d"
        (.cons (.elem 1 "p" .nil) .nil))).children).toList :=
  c1_amended.1 true coefHalf 0 "d" _ _ (by decide) (by decide)

theorem calc_depth_le_depFMax_of_mem :
    ∀ {cs : HForest} {c : HNode}, c ∈ cs.toList → calc_depth c ≤ depFMax cs
  | .cons d ds, c, h => by
    rcases List.mem_cons.mp h with h | h
    · subst h; simp [depFMax]
    · exact le_trans (calc_depth_le_depFMax_of_mem h) (by simp [depFMax])

theorem calc_depth_lt_of_mem_children {i : Nat} {t : String} {cs : HForest}
    {c : HNode} (h : c ∈ cs.toList) :
    calc_depth c < calc_depth (.elem i t cs) := by
  cases cs with
  | nil => simp [HForest.toList] at h
  | cons d ds =>
    rw [calc_depth]
    exact Nat.lt_succ_of_le (calc_depth_le_depFMax_of_mem h)

theorem depFMax_filterF_le (p : HNode → Bool) :
    ∀ cs : HForest, depFMax (cs.filterF p) ≤ depFMax cs
  | .nil => le_refl 0
  | .cons c cs => by
    by_cases h : p c = true
    · simp only [filterF, if_pos h, depFMax]
      exact max_le_max (le_refl _) (depFMax_filterF_le p cs)
    · simp only [filterF, if_neg h]
      exact le_trans (depFMax_filterF_le p cs) (by simp [depFMax])

theorem depFMax_mapF_le (f : HNode → HNode)
    (hf : ∀ c, calc_depth (f c) ≤ calc_depth c) :
    ∀ cs : HForest, depFMax (cs.mapF f) ≤ depFMax cs
  | .nil => le_refl 0
  | .cons c cs => by
    simp only [mapF, depFMax]
    exact max_le_max (hf c) (depFMax_mapF_le f hf cs)

theorem calc_depth_elem_le {i j : Nat} {t u : String} {cs ds : HForest}
    (hnil : cs = .nil → ds = .nil) (hle : depFMax ds ≤ depFMax cs) :
    calc_depth (.elem j u ds) ≤ calc_depth (.elem i t cs) := by
  cases cs with
  | nil =>
    rw [hnil rfl]
    simp [calc_depth]
  | cons c0 cs0 =>
    cases ds with
    | nil => simp [calc_depth]
    | cons d0 ds0 =>
      rw [calc_depth, calc_depth]
      exact Nat.succ_le_succ hle

theorem calc_depth_prune_pass_le (forced : Bool) (coef : ℚ) (n : HNode) :
    calc_depth (prune_pass forced coef n) ≤ calc_depth n := by
  cases n with
  | text s => exact le_refl 0
  | elem i t cs =>
    rw [prune_pass]
    refine calc_depth_elem_le (fun h => ?_) (depFMax_filterF_le _ cs)
    subst h
    rfl

theorem calc_depth_procChildren_le (f : HNode → HNode)
    (hf : ∀ c, calc_depth (f c) ≤ calc_depth c) (n : HNode) :
    calc_depth (procChildren f n) ≤ calc_depth n := by
  cases n with
  | text s => exact le_refl 0
  | elem i t cs =>
    rw [procChildren]
    refine calc_depth_elem_le (fun h => ?_) (depFMax_mapF_le f hf cs)
    subst h
    rfl

theorem calc_depth_iterate_le (g : HNode → HNode)
    (hg : ∀ m, calc_depth (g m) ≤ calc_depth m) :
    ∀ (k : Nat) (m : HNode), calc_depth (g^[k] m) ≤ calc_depth m
  | 0, m => le_refl _
  | k + 1, m => by
    rw [Function.iterate_succ_apply]
    exact le_trans (calc_depth_iterate_le g hg k (g m)) (hg m)

theorem calc_depth_procNode_le (forced : Bool) (coef : ℚ) :
    ∀ (fuel : Nat) (n : HNode),
      calc_depth (procNode forced coef fuel n) ≤ calc_depth n
  | 0, n => le_refl _
  | fuel + 1, n => by
    cases n with
    | text s => exact le_refl 0
    | elem i t cs =>
      rw [procNode]
      refine le_trans (calc_depth_iterate_le _ (fun m =>
        calc_depth_procChildren_le _
          (fun c => calc_depth_procNode_le forced coef fuel c) m) _ _) ?_
      exact calc_depth_prune_pass_le forced coef _

theorem mapF_congr (f g : HNode → HNode) :
    ∀ cs : HForest, (∀ c ∈ cs.toList, f c = g c) → cs.mapF f = cs.mapF g
  | .nil, _ => rfl
  | .cons c cs, h => by
    rw [mapF, mapF, h c (List.mem_cons_self c cs.toList),
      mapF_congr f g cs (fun d hd => h d (show d ∈ c :: cs.toList from
        List.mem_cons_of_mem c hd))]

theorem procNode_fuel_stable (forced : Bool) (coef : ℚ) :
    ∀ (f g : Nat) (n : HNode), calc_depth n ≤ f → calc_depth n ≤ g →
      procNode forced coef (f + 1) n = procNode forced coef (g + 1) n
  | f, g, .text s, _, _ => rfl
  | f, g, .elem i t .nil, _, _ => rfl
  | f, g, .elem i t (.cons c0 cs0), hf, hg => by
    have hd : 1 ≤ calc_depth (.elem i t (.cons c0 cs0)) := by
      rw [calc_depth]; omega
    obtain ⟨f2, rfl⟩ : ∃ f2, f = f2 + 1 := ⟨f - 1, by omega⟩
    obtain ⟨g2, rfl⟩ : ∃ g2, g = g2 + 1 := ⟨g - 1, by omega⟩
    have hstep : ∀ m, calc_depth m ≤ calc_depth (.elem i t (.cons c0 cs0)) →
        procChildren (procNode forced coef (f2 + 1)) m
          = procChildren (procNode forced coef (g2 + 1)) m := by
      intro m hm
      cases m with
      | text s => rfl
      | elem j u ds =>
        rw [procChildren, procChildren]
        rw [mapF_congr _ _ ds (fun c hc => ?_)]
        have hcd : calc_depth c < calc_depth (.elem j u ds) :=
          calc_depth_lt_of_mem_children hc
        exact procNode_fuel_stable forced coef f2 g2 c (by omega) (by omega)
    have hmono : ∀ m, calc_depth (procChildren
        (procNode forced coef (g2 + 1)) m) ≤ calc_depth m :=
      fun m => calc_depth_procChildren_le _
        (fun c => calc_depth_procNode_le forced coef (g2 + 1) c) m
    have hiter : ∀ (k : Nat) (m : HNode),
        calc_depth m ≤ calc_depth (.elem i t (.cons c0 cs0)) →
        (procChildren (procNode forced coef (f2 + 1)))^[k] m
          = (procChildren (procNode forced coef (g2 + 1)))^[k] m := by
      intro k
      induction k with
      | zero => intro m _; rfl
      | succ k ih =>
        intro m hm
        rw [Function.iterate_succ_apply, Function.iterate_succ_apply,
          hstep m hm]
        exact ih _ (le_trans (hmono m) hm)
    rw [procNode, procNode]
    exact hiter _ _ (calc_depth_prune_pass_le forced coef _)

theorem pruneRemoved_of_no_elem {forced : Bool} {coef : ℚ} {cs : HForest}
    (h : elemChilds cs = .nil) : pruneRemoved forced coef cs = [] := by
  rw [pruneRemoved, h]
  rfl

theorem filterF_of_all_true (p : HNode → Bool) :
    ∀ cs : HForest, (∀ c ∈ cs.toList, p c = true) → cs.filterF p = cs
  | .nil, _ => rfl
  | .cons c cs, h => by
    rw [filterF, if_pos (h c (List.mem_cons_self c cs.toList)),
      filterF_of_all_true p cs (fun d hd => h d (show d ∈ c :: cs.toList from
        List.mem_cons_of_mem c hd))]

/-- C5 (termination): the recursion of `main_content` is well defined —
with any fuel at least the tree's depth the result is the same (each
recursive call descends to a sibling set of strictly smaller depth, so
depth-many levels of fuel are never exhausted), and a node with no
element children yields an empty sibling set, on which processing is the
identity, ending that branch. -/
theorem main_body_fuel_stable (forced : Bool) (coef : ℚ) :
    ∀ (a b : Nat) (root : HNode), calc_depth root ≤ a → calc_depth root ≤ b →
      main_body forced coef a root = main_body forced coef b root := by
  intro a b root ha hb
  cases root with
  | text s => rfl
  | elem i t cs =>
    cases cs with
    | nil => rfl
    | cons c0 cs0 =>
      have hd : 1 ≤ calc_depth (.elem i t (.cons c0 cs0)) := by
        rw [calc_depth]; omega
      obtain ⟨a2, rfl⟩ : ∃ a2, a = a2 + 1 := ⟨a - 1, by omega⟩
      obtain ⟨b2, rfl⟩ : ∃ b2, b = b2 + 1 := ⟨b - 1, by omega⟩
      rw [main_body, main_body, procChildren, procChildren,
        mapF_congr _ _ _ (fun c hc => ?_)]
      have hcd : calc_depth c < calc_depth (.elem i t (.cons c0 cs0)) :=
        calc_depth_lt_of_mem_children hc
      exact procNode_fuel_stable forced coef a2 b2 c (by omega) (by omega)

theorem c5_termination :
    (∀ (forced : Bool) (coef : ℚ) (f g : Nat) (root : HNode),
        calc_depth root ≤ f → calc_depth root ≤ g →
        main_content forced coef f root = main_content forced coef g root) ∧
    (∀ (forced : Bool) (coef : ℚ) (fuel : Nat) (i : Nat) (t : String)
        (cs : HForest), elemChilds cs = .nil →
        procNode forced coef fuel (.elem i t cs) = .elem i t cs) := by
  constructor
  · intro forced coef f g root hf hg
    have hmono2 : calc_depth (main_body forced coef g root) ≤ calc_depth root :=
      calc_depth_procChildren_le _
        (fun c => calc_depth_procNode_le forced coef g c) root
    rw [main_content, main_content,
      main_body_fuel_stable forced coef f g root hf hg]
    exact main_body_fuel_stable forced coef f g _
      (le_trans hmono2 hf) (le_trans hmono2 hg)
  · intro forced coef fuel i t cs h
    cases fuel with
    | zero => rfl
    | succ fuel =>
      rw [procNode]
      have hk : (cs.filterF isElem).lengthF = 0 := by
        rw [show cs.filterF isElem = elemChilds cs from rfl, h]
        rfl
      rw [hk]
      simp only [Function.iterate_zero, id]
      rw [prune_pass]
      rw [pruneRemoved_of_no_elem h]
      rw [filterF_of_all_true _ cs (fun c _ => by simp)]

/-- Witness for `c5_termination`: two different sufficient fuels agree. -/
theorem c5_witness :
    main_content true coefHalf 3
        (.elem 0 "r" (.cons (.elem 1 "div" (.cons (.elem 2 "div" .nil) .nil)) .nil))
      = main_content true coefHalf 7
        (.elem 0 "r" (.cons (.elem 1 "div" (.cons (.elem 2 "div" .nil) .nil)) .nil)) :=
  c5_termination.1 true coefHalf 3 7 _ (by decide) (by decide)

mutual

/-- `prunedLeN a b`: `a` is obtainable from `b` by decomposing (deleting)
some element subtrees, with surviving nodes kept in order and themselves
recursively pruned. -/
def prunedLeN : HNode → HNode → Bool
  | .text s, .text s2 => s == s2
  | .elem i t cs, .elem j u ds => i == j && t == u && prunedLeF cs ds
  | _, _ => false

/-- Forest version of `prunedLeN`: some element members of the right list
are dropped, the rest correspond in order. -/
def prunedLeF : HForest → HForest → Bool
  | .nil, .nil => true
  | .nil, .cons d ds => isElem d && prunedLeF .nil ds
  | .cons c cs, .cons d ds =>
    (prunedLeN c d && prunedLeF cs ds) || (isElem d && prunedLeF (.cons c cs) ds)
  | .cons _ _, .nil => false

end

mutual

theorem prunedLeN_refl : ∀ n : HNode, prunedLeN n n = true
  | .text s => by simp [prunedLeN]
  | .elem i t cs => by simp [prunedLeN, prunedLeF_refl cs]

theorem prunedLeF_refl : ∀ cs : HForest, prunedLeF cs cs = true
  | .nil => rfl
  | .cons c cs => by simp [prunedLeF, prunedLeN_refl c, prunedLeF_refl cs]

end

theorem prunedLeN_isElem : ∀ {b d : HNode}, prunedLeN b d = true →
    isElem b = true → isElem d = true := by
  intro b d h hb
  cases b with
  | text s => simp [isElem] at hb
  | elem i t cs =>
    cases d with
    | text s2 => simp [prunedLeN] at h
    | elem j u ds => rfl

mutual

theorem prunedLeN_trans : ∀ (a b z : HNode), prunedLeN a b = true →
    prunedLeN b z = true → prunedLeN a z = true
  | a, b, .text s, hab, hbz => by
    cases b with
    | text s2 =>
      cases a with
      | text s1 =>
        simp only [prunedLeN, beq_iff_eq] at hab hbz ⊢
        exact hab.trans hbz
      | elem i t cs => simp [prunedLeN] at hab
    | elem j u ds => simp [prunedLeN] at hbz
  | a, b, .elem k v es, hab, hbz => by
    cases b with
    | text s2 => simp [prunedLeN] at hbz
    | elem j u ds =>
      cases a with
      | text s1 => simp [prunedLeN] at hab
      | elem i t cs =>
        simp only [prunedLeN, Bool.and_eq_true, beq_iff_eq] at hab hbz ⊢
        exact ⟨⟨hab.1.1.trans hbz.1.1, hab.1.2.trans hbz.1.2⟩,
          prunedLeF_trans cs ds es hab.2 hbz.2⟩

theorem prunedLeF_trans : ∀ (x y z : HForest),
    prunedLeF x y = true → prunedLeF y z = true → prunedLeF x z = true
  | x, y, .nil, hxy, hyz => by
    cases y with
    | nil =>
      cases x with
      | nil => rfl
      | cons a as => simp [prunedLeF] at hxy
    | cons b bs => simp [prunedLeF] at hyz
  | x, y, .cons d ds, hxy, hyz => by
    cases y with
    | nil =>
      cases x with
      | nil =>
        rw [prunedLeF] at hyz ⊢
        simp only [Bool.and_eq_true] at hyz ⊢
        exact ⟨hyz.1, prunedLeF_trans .nil .nil ds rfl hyz.2⟩
      | cons a as => simp [prunedLeF] at hxy
    | cons b bs =>
      rw [prunedLeF] at hyz
      simp only [Bool.or_eq_true, Bool.and_eq_true] at hyz
      rcases hyz with ⟨hbd, hbsds⟩ | ⟨hd, hyds⟩
      · cases x with
        | nil =>
          rw [prunedLeF] at hxy ⊢
          simp only [Bool.and_eq_true] at hxy ⊢
          exact ⟨prunedLeN_isElem hbd hxy.1,
            prunedLeF_trans .nil bs ds hxy.2 hbsds⟩
        | cons a as =>
          rw [prunedLeF] at hxy ⊢
          simp only [Bool.or_eq_true, Bool.and_eq_true] at hxy ⊢
          rcases hxy with ⟨hab, hasbs⟩ | ⟨hb, hxbs⟩
          · exact Or.inl ⟨prunedLeN_trans a b d hab hbd,
              prunedLeF_trans as bs ds hasbs hbsds⟩
          · exact Or.inr ⟨prunedLeN_isElem hbd hb,
              prunedLeF_trans (.cons a as) bs ds hxbs hbsds⟩
      · cases x with
        | nil =>
          rw [prunedLeF]
          simp only [Bool.and_eq_true]
          exact ⟨hd, prunedLeF_trans .nil (.cons b bs) ds hxy hyds⟩
        | cons a as =>
          rw [prunedLeF]
          simp only [Bool.or_eq_true, Bool.and_eq_true]
          exact Or.inr ⟨hd, prunedLeF_trans (.cons a as) (.cons b bs) ds hxy hyds⟩

end

theorem prunedLeF_cons_right {x : HForest} {d : HNode} {ds : HForest}
    (hx : prunedLeF x ds = true) (hd : isElem d = true) :
    prunedLeF x (.cons d ds) = true := by
  cases x with
  | nil => rw [prunedLeF]; simp [hd, hx]
  | cons a as => rw [prunedLeF]; simp [hd, hx]

theorem prunedLeF_filterF (p : HNode → Bool) :
    ∀ cs : HForest, (∀ c ∈ cs.toList, p c = false → isElem c = true) →
      prunedLeF (cs.filterF p) cs = true
  | .nil, _ => rfl
  | .cons c cs, h => by
    have ih := prunedLeF_filterF p cs
      (fun d hd hp => h d (show d ∈ c :: cs.toList from
        List.mem_cons_of_mem c hd) hp)
    by_cases hc : p c = true
    · rw [filterF, if_pos hc, prunedLeF]
      simp [prunedLeN_refl c, ih]
    · have hc0 : p c = false := by revert hc; cases p c <;> simp
      rw [filterF, if_neg hc]
      exact prunedLeF_cons_right ih (h c (List.mem_cons_self c cs.toList) hc0)

theorem prune_pass_prunedLe (forced : Bool) (coef : ℚ) (n : HNode) :
    prunedLeN (prune_pass forced coef n) n = true := by
  cases n with
  | text s => simp [prune_pass, prunedLeN]
  | elem i t cs =>
    rw [prune_pass, prunedLeN]
    simp only [beq_self_eq_true, Bool.true_and]
    apply prunedLeF_filterF
    intro c _ hp
    revert hp
    cases hel : isElem c <;> simp [hel]

theorem prunedLeF_mapF (f : HNode → HNode) :
    ∀ cs : HForest, (∀ c ∈ cs.toList, prunedLeN (f c) c = true) →
      prunedLeF (cs.mapF f) cs = true
  | .nil, _ => rfl
  | .cons c cs, h => by
    rw [mapF, prunedLeF]
    simp [h c (List.mem_cons_self c cs.toList),
      prunedLeF_mapF f cs (fun d hd => h d (show d ∈ c :: cs.toList from
        List.mem_cons_of_mem c hd))]

theorem procChildren_prunedLe (f : HNode → HNode)
    (hf : ∀ c, prunedLeN (f c) c = true) (n : HNode) :
    prunedLeN (procChildren f n) n = true := by
  cases n with
  | text s => simp [procChildren, prunedLeN]
  | elem i t cs =>
    rw [procChildren, prunedLeN]
    simp [prunedLeF_mapF f cs (fun c _ => hf c)]

theorem iterate_prunedLe (g : HNode → HNode)
    (hg : ∀ m, prunedLeN (g m) m = true) :
    ∀ (k : Nat) (m : HNode), prunedLeN (g^[k] m) m = true
  | 0, m => prunedLeN_refl m
  | k + 1, m => by
    rw [Function.iterate_succ_apply]
    exact prunedLeN_trans _ (g m) m (iterate_prunedLe g hg k (g m)) (hg m)

theorem procNode_prunedLe (forced : Bool) (coef : ℚ) :
    ∀ (fuel : Nat) (n : HNode), prunedLeN (procNode forced coef fuel n) n = true
  | 0, n => prunedLeN_refl n
  | fuel + 1, n => by
    cases n with
    | text s => exact prunedLeN_refl _
    | elem i t cs =>
      rw [procNode]
      exact prunedLeN_trans _ _ _
        (iterate_prunedLe _ (fun m => procChildren_prunedLe _
          (fun c => procNode_prunedLe forced coef fuel c) m) _ _)
        (prune_pass_prunedLe forced coef _)

theorem main_content_prunedLe (forced : Bool) (coef : ℚ) (fuel : Nat)
    (t : HNode) : prunedLeN (main_content forced coef fuel t) t = true := by
  rw [main_content, main_body]
  exact prunedLeN_trans _ _ _
    (procChildren_prunedLe _ (fun c => procNode_prunedLe forced coef fuel c) _)
    (procChildren_prunedLe _ (fun c => procNode_prunedLe forced coef fuel c) t)

/-- The configuration coefficient 2 used by the C4 counterexample, as an
exact rational. -/
def coefTwo : ℚ := ⟨2, 1, one_ne_zero, Nat.coprime_one_right 2⟩

/-- C4 counterexample input: `root > h2 > div > [p, div > [p > p, div > p, p]]`.
In the first run the inner `div` holds 5 paragraph descendants and is
protected by forced mode; the run strips its subtree below, leaving only
one paragraph, so a second run (same coefficient 2, forced on) removes
that `div` as well: pruning is not idempotent. -/
def c4exTree : HNode :=
  .elem 0 "root" (.cons (.elem 1 "h2" (.cons (.elem 2 "div" (.cons
    (.elem 3 "p" .nil) (.cons (.elem 4 "div" (.cons
      (.elem 5 "p" (.cons (.elem 6 "p" .nil) .nil)) (.cons
      (.elem 7 "div" (.cons (.elem 8 "p" .nil) .nil)) (.cons
      (.elem 9 "p" .nil) .nil)))) .nil))) .nil)) .nil)

theorem c4_counterexample :
    main_content true coefTwo 8 (main_content true coefTwo 8 c4exTree)
      ≠ main_content true coefTwo 8 c4exTree := by
  decide

/-- C4 (amended): pruning is NOT idempotent — a second pass can remove
further nodes (`c4_counterexample`) — but it is monotone: the tree after
the second pass is always a pruned version of the tree after the first
(obtained from it by deleting element subtrees only; nothing is ever
added or altered). -/
theorem c4_amended (forced : Bool) (coef : ℚ) (fuel : Nat) (t : HNode) :
    prunedLeN (main_content forced coef fuel (main_content forced coef fuel t))
      (main_content forced coef fuel t) = true :=
  main_content_prunedLe forced coef fuel (main_content forced coef fuel t)

/-- The newline character. -/
def NL : Char := Char.ofNat 10

/-- Python `\s` (ASCII portion): space, tab, newline, carriage return,
vertical tab, form feed. -/
def isSpace (c : Char) : Bool :=
  c = ' ' || c = Char.ofNat 9 || c = NL || c = Char.ofNat 13 ||
    c = Char.ofNat 11 || c = Char.ofNat 12

/-- Python `\w` (ASCII portion): letters, digits, underscore. -/
def isWordChar (c : Char) : Bool :=
  c.isAlphanum || c = '_'

/-- `str.lstrip()` (ASCII whitespace). -/
def pyLStrip (s : List Char) : List Char := s.dropWhile isSpace

/-- `str.strip()` (ASCII whitespace). -/
def pyStrip (s : List Char) : List Char :=
  ((s.dropWhile isSpace).reverse.dropWhile isSpace).reverse

/-- Index of the first occurrence of `pat` in `s` (Python `str.find`,
with -1 rendered as `none`). -/
def firstOcc (pat : List Char) : List Char → Option Nat
  | [] => if pat = [] then some 0 else none
  | c :: rest =>
    if pat.isPrefixOf (c :: rest) then some 0
    else (firstOcc pat rest).map (fun i => i + 1)

/-- Python `pat in s`. -/
def containsSub (s pat : List Char) : Bool := (firstOcc pat s).isSome

/-- Scanner of `str.replace`: at `skip = 0` it looks for `old` at the
current position, emits `new` on a match and then skips the matched
characters (one is the scrutinised head, `old.length - 1` follow),
otherwise copies one character.  The skip counter makes the recursion
structural. -/
def pyReplaceGo (old new : List Char) : Nat → List Char → List Char
  | _, [] => []
  | skip + 1, _ :: rest => pyReplaceGo old new skip rest
  | 0, c :: rest =>
    if old.isPrefixOf (c :: rest) then
      new ++ pyReplaceGo old new (old.length - 1) rest
    else c :: pyReplaceGo old new 0 rest

/-- Python `s.replace(old, new)`: every non-overlapping occurrence,
scanned left to right, is replaced; with an empty `old`, `new` is
interleaved around every character. -/
def pyReplace (s old new : List Char) : List Char :=
  if old = [] then new ++ s.foldr (fun c acc => c :: (new ++ acc)) []
  else pyReplaceGo old new 0 s

/-- The paragraph-separation loop of `prepare_text` (lines 299-303):
`for p in paragr: if p.text == '': continue;
string = string.replace(p.text.strip(), '\n' + p.text.strip() + '\n')`,
with each paragraph given by its text. -/
def wrapParagraphs (s : List Char) (paragr : List (List Char)) : List Char :=
  paragr.foldl
    (fun string p =>
      if p = [] then string
      else pyReplace string (pyStrip p) (NL :: (pyStrip p ++ [NL]))) s

/-- Split a string into its lines at newline characters. -/
def linesOf : List Char → List (List Char)
  | [] => [[]]
  | c :: s =>
    if c = NL then [] :: linesOf s
    else
      match linesOf s with
      | [] => [[c]]
      | l :: ls => (c :: l) :: ls

/-- The largest index `j ≥ 1` of `run` holding `']'`: the backtracking of
the greedy `[^\s]+` before the closing `\]` in the token pattern
`\[(https?://[^\s]+)\]`. -/
def lastCloseIdx (run : List Char) : Option Nat :=
  (List.range run.length).reverse.find?
    (fun j => decide (1 ≤ j) && decide (run.getD j ' ' = ']'))

/-- Match of the alternative `\[(https?://[^\s]+)\]` at the start of `s`:
`'['`, a scheme, then the greedy non-space run backtracked to the last
feasible `']'`. -/
def tryBracket (s : List Char) : Option (List Char) :=
  match s with
  | '[' :: r =>
    let scheme : Option (List Char) :=
      if ("https://".toList).isPrefixOf r then some ("https://".toList)
      else if ("http://".toList).isPrefixOf r then some ("http://".toList)
      else none
    match scheme with
    | none => none
    | some pre =>
      let run := (r.drop pre.length).takeWhile (fun c => !isSpace c)
      match lastCloseIdx run with
      | none => none
      | some j => some ('[' :: (pre ++ run.take j ++ [']']))
  | _ => none

/-- Scanner of `re.findall(r"(\[(https?://[^\s]+)\]|[\w]+|[\s.,!?;\()-])", s)`:
at each position try, in order, a bracketed URL token, a maximal word-
character run, then a single whitespace/punctuation character from the
class; an unmatched character is dropped.  The skip counter consumes the
remainder of an emitted token, keeping the recursion structural. -/
def isPunctTok (c : Char) : Bool :=
  isSpace c || c = '.' || c = ',' || c = '!' || c = '?' || c = ';' ||
    c = '(' || c = ')' || c = '-'

def tokenizeGo : Nat → List Char → List (List Char)
  | _, [] => []
  | skip + 1, _ :: rest => tokenizeGo skip rest
  | 0, c :: rest =>
    match tryBracket (c :: rest) with
    | some tok => tok :: tokenizeGo (tok.length - 1) rest
    | none =>
      if isWordChar c then
        ((c :: rest).takeWhile isWordChar) ::
          tokenizeGo (((c :: rest).takeWhile isWordChar).length - 1) rest
      else if isPunctTok c then [c] :: tokenizeGo 0 rest
      else tokenizeGo 0 rest

/-- The token list `sp2` of `prepare_text`. -/
def tokenize (s : List Char) : List (List Char) := tokenizeGo 0 s

/-- One iteration of the wrapping loop of `prepare_text` (lines 316-336):
`w` is the token, stripped at line start; `length` counts the unstripped
token; a `'\n'` token is emitted and the counter reset, and then the
not-elif `if length > MAX / elif length == MAX / else` chain runs on the
updated state. -/
def wrapStep (MAX : Nat) (st : Nat × List Char) (tok : List Char) :
    Nat × List Char :=
  let w := if st.1 = 1 then tok.dropWhile isSpace else tok
  let len2 := st.1 + tok.length
  if w = [NL] then
    let ns := st.2 ++ [NL]
    if 1 > MAX then (w.length + 1, ns ++ NL :: w)
    else if 1 = MAX then (1, ns ++ w ++ [NL])
    else (1, ns ++ w)
  else
    if len2 > MAX then (w.length + 1, st.2 ++ NL :: w)
    else if len2 = MAX then (1, st.2 ++ w ++ [NL])
    else (len2, st.2 ++ w)

/-- The wrapping loop of `prepare_text`: fold `wrapStep` over the tokens
from `new_string = ''`, `length = 1`. -/
def wrapTokens (MAX : Nat) (toks : List (List Char)) : List Char :=
  (toks.foldl (wrapStep MAX) (1, [])).2

/-- Lines 310-338 of `prepare_text`: tokenize, wrap to `MAX_LENGTH`, then
`new_string.replace('\n\n\n', '\n')`. -/
def prepare_wrap (MAX : Nat) (s : List Char) : List Char :=
  pyReplace (wrapTokens MAX (tokenize s)) [NL, NL, NL] [NL]

/-- Scanner of one `re.subn(pattern, '', html)` of `_prepocess`, where the
pattern is `<tag.*?</close>` (DOTALL, lazy): at a position starting with
`op`, the match extends to the nearest later `cl` and is deleted;
otherwise the character is copied.  No match at all leaves the suffix
unchanged — zero substitutions are not an error. -/
def removeFamGo (op cl : List Char) : Nat → List Char → List Char
  | _, [] => []
  | skip + 1, _ :: rest => removeFamGo op cl skip rest
  | 0, c :: rest =>
    if op.isPrefixOf (c :: rest) then
      match firstOcc cl (List.drop op.length (c :: rest)) with
      | some j => removeFamGo op cl (op.length + j + cl.length - 1) rest
      | none => c :: removeFamGo op cl 0 rest
    else c :: removeFamGo op cl 0 rest

def removeFam (op cl s : List Char) : List Char := removeFamGo op cl 0 s

/-- `Configuration.pre_processing` as (opening literal, closing literal)
pairs of the eight patterns.  The `ul` pattern is written in the source
as a NON-raw string `'<(ul).*?</\1>(?s)'`, so its `\1` is the character
U+0001, not a backreference: its closing literal is `</\x01>`, which no
HTML contains.  The `meta` pattern has no `(?s)`, so in Python its `.`
does not cross newlines; `removeFam` searches the close literal `>`
across newlines, which coincides with the source on single-line `meta`
tags (all inputs of `c8_ul_family_not_removed`). -/
def pre_processing : List (List Char × List Char) :=
  [("<script".toList, "</script>".toList),
   ("<style".toList, "</style>".toList),
   ("<meta".toList, ">".toList),
   ("<ul".toList, ['<', '/', Char.ofNat 1, '>']),
   ("<nav".toList, "</nav>".toList),
   ("<footer".toList, "</footer>".toList),
   ("<header".toList, "</header>".toList),
   ("<form".toList, "</form>".toList)]

/-- `Parser._prepocess`: apply the eight substitutions in order. -/
def prepocess (html : List Char) : List Char :=
  pre_processing.foldl (fun h p => removeFam p.1 p.2 h) html

/-- An `<a>` element as `_get_urls` sees it: its `href` attribute (absent
hrefs raise `KeyError` in the source) and its visible text. -/
structure Anchor where
  href : Option (List Char)
  atext : List Char

/-- `re.match(r'http(s)?://', url)` and `.group()`: the matched scheme
prefix, or `none` (on which `.group()` raises `AttributeError`). -/
def matchScheme (url : List Char) : Option (List Char) :=
  if ("https://".toList).isPrefixOf url then some ("https://".toList)
  else if ("http://".toList).isPrefixOf url then some ("http://".toList)
  else none

/-- Scanner of Python `str.split(sep)` for a nonempty separator. -/
def pySplitGo (sep : List Char) : Nat → List Char → List (List Char)
  | _, [] => [[]]
  | skip + 1, _ :: rest => pySplitGo sep skip rest
  | 0, c :: rest =>
    if sep.isPrefixOf (c :: rest) then
      [] :: pySplitGo sep (sep.length - 1) rest
    else
      match pySplitGo sep 0 rest with
      | [] => [[c]]
      | p :: ps => (c :: p) :: ps

/-- Python `s.split(sep)` (the source only splits on the nonempty
separators `"//"` and `"/"`; Python raises on an empty separator). -/
def pySplit (s sep : List Char) : List (List Char) :=
  if sep = [] then [s] else pySplitGo sep 0 s

/-- `Formatter._domain_name`:
`re.match(r'http(s)?://', url).group() + url.split("//")[-1].split("/")[0]`;
`none` models the `AttributeError` when the scheme is missing. -/
def domain_name (url : List Char) : Option (List Char) :=
  match matchScheme url with
  | none => none
  | some pre =>
    some (pre ++ ((pySplit url ("//".toList)).getLastD []).takeWhile
      (fun c => c ≠ '/'))

/-- Dict update `r_urls.update({href: url.text})`: an existing key keeps
its position and takes the new value, a new key is appended. -/
def updateAssoc (r : List (List Char × List Char)) (k v : List Char) :
    List (List Char × List Char) :=
  if r.any (fun p => decide (p.1 = k)) then
    r.map (fun p => if p.1 = k then (k, v) else p)
  else r ++ [(k, v)]

/-- The `for url in urls` loop of `_get_urls` over the accumulated dict
`r_urls`: reading `url['href']` on an anchor without the attribute raises
`KeyError` (modelled `none`), aborting the loop. -/
def getUrlsLoop (dom : List Char) :
    List (List Char × List Char) → List Anchor →
      Option (List (List Char × List Char))
  | r, [] => some r
  | r, u :: urls =>
    match u.href with
    | none => none
    | some h =>
      if ¬ containsSub h ("http".toList) then
        getUrlsLoop dom (updateAssoc r ('[' :: ((dom ++ h) ++ [']'])) u.atext) urls
      else getUrlsLoop dom (updateAssoc r ('[' :: (h ++ [']'])) u.atext) urls

/-- `Formatter._get_urls`: resolve the domain, then for each anchor read
`url['href']` and bracket it, prefixing the domain when `"http"` does not
occur in the href (the `("http" or "htpps")` expression evaluates to
`"http"`). -/
def get_urls (urls : List Anchor) (domain : List Char) :
    Option (List (List Char × List Char)) :=
  match domain_name domain with
  | none => none
  | some dom => getUrlsLoop dom [] urls

/-- C6 counterexample: with flattened text `"ab ab"` and the single
paragraph `"ab"`, the source's `str.replace` wraps BOTH occurrences; the
claim's first-match semantics would leave the second occurrence alone. -/
theorem c6_counterexample :
    wrapParagraphs ("ab ab".toList) ["ab".toList] =
      ("\nab\n \nab\n".toList) ∧
    wrapParagraphs ("ab ab".toList) ["ab".toList] ≠ ("\nab\n ab".toList) := by
  decide

theorem pyReplaceGo_skip (old new : List Char) :
    ∀ (s : List Char) (k : Nat),
      pyReplaceGo old new k s = pyReplaceGo old new 0 (s.drop k)
  | [], k => by cases k <;> rfl
  | c :: rest, 0 => rfl
  | c :: rest, k + 1 => by
    rw [pyReplaceGo, pyReplaceGo_skip old new rest k]
    rfl

theorem pyReplace_of_firstOcc_none {old : List Char} (new : List Char)
    (hold : old ≠ []) :
    ∀ s : List Char, firstOcc old s = none → pyReplace s old new = s
  | [], _ => by rw [pyReplace, if_neg hold]; rfl
  | c :: rest, h => by
    rw [firstOcc] at h
    by_cases hpre : old.isPrefixOf (c :: rest) = true
    · rw [if_pos hpre] at h; cases h
    · rw [if_neg hpre] at h
      have hrest : firstOcc old rest = none := by
        cases hr : firstOcc old rest with
        | none => rfl
        | some i => exact Option.noConfusion (hr ▸ h)
      have ih := pyReplace_of_firstOcc_none new hold rest hrest
      rw [pyReplace, if_neg hold] at ih ⊢
      rw [pyReplaceGo, if_neg hpre, ih]

theorem pyReplace_of_firstOcc_some {old : List Char} (new : List Char)
    (hold : old ≠ []) :
    ∀ (s : List Char) (i : Nat), firstOcc old s = some i →
      pyReplace s old new =
        s.take i ++ new ++ pyReplace (s.drop (i + old.length)) old new
  | [], i, h => by
    rw [firstOcc, if_neg hold] at h; cases h
  | c :: rest, i, h => by
    rw [firstOcc] at h
    have holdlen : 1 ≤ old.length := by
      cases old with
      | nil => exact absurd rfl hold
      | cons _ _ => simp
    by_cases hpre : old.isPrefixOf (c :: rest) = true
    · rw [if_pos hpre] at h
      have hi0 : i = 0 := by cases h; rfl
      subst hi0
      rw [pyReplace, if_neg hold, pyReplaceGo, if_pos hpre,
        pyReplaceGo_skip old new rest (old.length - 1)]
      have hdrop : rest.drop (old.length - 1) = (c :: rest).drop (0 + old.length) := by
        have : 0 + old.length = (old.length - 1) + 1 := by omega
        rw [this]
        rfl
      rw [hdrop]
      rw [show pyReplaceGo old new 0 ((c :: rest).drop (0 + old.length))
          = pyReplace ((c :: rest).drop (0 + old.length)) old new from
        by rw [pyReplace, if_neg hold]]
      rfl
    · rw [if_neg hpre] at h
      cases hr : firstOcc old rest with
      | none => exact Option.noConfusion (hr ▸ h)
      | some i2 =>
        rw [hr] at h
        have hi : i = i2 + 1 := by cases h; rfl
        subst hi
        have ih := pyReplace_of_firstOcc_some new hold rest i2 hr
        rw [pyReplace, if_neg hold] at ih ⊢
        rw [pyReplaceGo, if_neg hpre, ih]
        have : (c :: rest).drop (i2 + 1 + old.length) =
            rest.drop (i2 + old.length) := by
          have : i2 + 1 + old.length = (i2 + old.length) + 1 := by omega
          rw [this]
          rfl
        rw [this]
        simp

/-- C6 (amended): each non-empty paragraph's trimmed text is wrapped with
line breaks via Python replace-all semantics — every non-overlapping
occurrence, scanned left to right, is affected.  In particular when the
paragraph text occurs a second time after the first occurrence, the
second occurrence is wrapped too (which `c6_counterexample` shows on the
source semantics, against the claim's first-match reading). -/
theorem c6_replace_all (s p : List Char) (i j : Nat)
    (hp : p ≠ []) (hsp : pyStrip p ≠ [])
    (hi : firstOcc (pyStrip p) s = some i)
    (hj : firstOcc (pyStrip p) (s.drop (i + (pyStrip p).length)) = some j) :
    wrapParagraphs s [p] =
      s.take i ++ (NL :: (pyStrip p ++ [NL]))
        ++ ((s.drop (i + (pyStrip p).length)).take j
        ++ (NL :: (pyStrip p ++ [NL]))
        ++ pyReplace
            ((s.drop (i + (pyStrip p).length)).drop (j + (pyStrip p).length))
            (pyStrip p) (NL :: (pyStrip p ++ [NL]))) := by
  rw [wrapParagraphs, List.foldl_cons, List.foldl_nil, if_neg hp,
    pyReplace_of_firstOcc_some _ hsp s i hi,
    pyReplace_of_firstOcc_some _ hsp _ j hj]

/-- Witness for `c6_replace_all` at text `"ab ab"`, paragraph `"ab"`. -/
theorem c6_witness :
    wrapParagraphs ("ab ab".toList) ["ab".toList] =
      ("ab ab".toList).take 0 ++ (NL :: (pyStrip ("ab".toList) ++ [NL]))
        ++ ((("ab ab".toList).drop (0 + (pyStrip ("ab".toList)).length)).take 1
        ++ (NL :: (pyStrip ("ab".toList) ++ [NL]))
        ++ pyReplace
            ((("ab ab".toList).drop
              (0 + (pyStrip ("ab".toList)).length)).drop
                (1 + (pyStrip ("ab".toList)).length))
            (pyStrip ("ab".toList))
            (NL :: (pyStrip ("ab".toList) ++ [NL]))) :=
  c6_replace_all ("ab ab".toList) ("ab".toList) 0 1
    (by decide) (by decide) (by decide) (by decide)

/-- C9 counterexample: an anchor lacking an `href` attribute makes
`_get_urls` raise `KeyError` (modelled `none`) — text preparation does
NOT complete for every anchor list. -/
theorem c9_counterexample :
    get_urls [⟨none, "x".toList⟩] ("https://e.com".toList) = none := by
  decide

theorem getUrlsLoop_isSome (dom : List Char) :
    ∀ (urls : List Anchor) (r : List (List Char × List Char)),
      (∀ u ∈ urls, u.href.isSome = true) →
      (getUrlsLoop dom r urls).isSome = true
  | [], r, _ => rfl
  | u :: urls, r, h => by
    have hu := h u (List.mem_cons_self u urls)
    cases hh : u.href with
    | none => rw [hh] at hu; cases hu
    | some href =>
      simp only [getUrlsLoop, hh]
      have hrec := fun r2 => getUrlsLoop_isSome dom urls r2
        (fun v hv => h v (List.mem_cons_of_mem u hv))
      by_cases hc : ¬ containsSub href ("http".toList) = true
      · rw [if_pos hc]
        exact hrec _
      · rw [if_neg hc]
        exact hrec _

/-- C9 (amended): empty paragraphs are silently skipped (the loop step
for an empty paragraph text is the identity), and link extraction
completes for every anchor list in which every anchor HAS an `href`
(given a well-formed page URL); but an anchor without `href` raises
`KeyError` (`c9_counterexample`). -/
theorem c9_amended :
    (∀ (s : List Char) (ps : List (List Char)),
      wrapParagraphs s ([] :: ps) = wrapParagraphs s ps) ∧
    (∀ (urls : List Anchor) (domain : List Char),
      (domain_name domain).isSome = true →
      (∀ u ∈ urls, u.href.isSome = true) →
      (get_urls urls domain).isSome = true) := by
  constructor
  · intro s ps
    rw [wrapParagraphs, wrapParagraphs, List.foldl_cons, if_pos rfl]
  · intro urls domain hdom hurls
    rw [get_urls]
    cases hd : domain_name domain with
    | none => rw [hd] at hdom; cases hdom
    | some dom => exact getUrlsLoop_isSome dom urls [] hurls

/-- Witness for `c9_amended`: a relative href on a well-formed page URL. -/
theorem c9_witness :
    (get_urls [⟨some ("/about".toList), "About".toList⟩]
      ("https://example.com/news".toList)).isSome = true :=
  c9_amended.2 [⟨some ("/about".toList), "About".toList⟩]
    ("https://example.com/news".toList) (by decide) (by decide)

theorem pySplitGo_skip (sep : List Char) :
    ∀ (s : List Char) (k : Nat),
      pySplitGo sep k s = pySplitGo sep 0 (s.drop k)
  | [], k => by cases k <;> rfl
  | c :: rest, 0 => rfl
  | c :: rest, k + 1 => by
    rw [pySplitGo, pySplitGo_skip sep rest k]
    rfl

theorem pySplitGo_no_sep {sep : List Char} :
    ∀ s : List Char, firstOcc sep s = none → pySplitGo sep 0 s = [s]
  | [], _ => rfl
  | c :: rest, h => by
    rw [firstOcc] at h
    by_cases hpre : sep.isPrefixOf (c :: rest) = true
    · rw [if_pos hpre] at h; cases h
    · rw [if_neg hpre] at h
      have hrest : firstOcc sep rest = none := by
        cases hr : firstOcc sep rest with
        | none => rfl
        | some i => exact Option.noConfusion (hr ▸ h)
      rw [pySplitGo, if_neg hpre, pySplitGo_no_sep rest hrest]

theorem isPrefixOf_append_self : ∀ l r : List Char, l.isPrefixOf (l ++ r) = true
  | [], r => by simp [List.isPrefixOf]
  | c :: l, r => by simp [List.isPrefixOf, isPrefixOf_append_self l r]

theorem isPrefixOf_cons_ne {a b : Char} (l r : List Char) (h : ¬ a = b) :
    (a :: l).isPrefixOf (b :: r) = false := by
  simp [List.isPrefixOf, h]

theorem pySplitGo_cons_ne {sep : List Char} {c : Char} {X : List Char}
    {p : List Char} {ps : List (List Char)}
    (hpre : sep.isPrefixOf (c :: X) = false)
    (hX : pySplitGo sep 0 X = p :: ps) :
    pySplitGo sep 0 (c :: X) = (c :: p) :: ps := by
  rw [pySplitGo, if_neg (by rw [hpre]; exact Bool.false_ne_true), hX]

theorem pySplitGo_slashes {rest : List Char}
    (h : firstOcc ("//".toList) rest = none) :
    pySplitGo ("//".toList) 0 ('/' :: '/' :: rest) = [[], rest] := by
  have hlen : ("//".toList).length - 1 = 1 := by decide
  rw [pySplitGo, if_pos (by exact isPrefixOf_append_self ("//".toList) rest),
    pySplitGo_skip, hlen]
  simp only [List.drop_succ_cons, List.drop_zero]
  rw [pySplitGo_no_sep rest h]

theorem pySplit_scheme_https {rest : List Char}
    (h : firstOcc ("//".toList) rest = none) :
    pySplit (("https://".toList) ++ rest) ("//".toList)
      = ["https:".toList, rest] := by
  rw [pySplit, if_neg (by decide)]
  have h8 := pySplitGo_slashes h
  have h7 := pySplitGo_cons_ne (c := ':')
    (isPrefixOf_cons_ne _ _ (by decide)) h8
  have h6 := pySplitGo_cons_ne (c := 's')
    (isPrefixOf_cons_ne _ _ (by decide)) h7
  have h5 := pySplitGo_cons_ne (c := 'p')
    (isPrefixOf_cons_ne _ _ (by decide)) h6
  have h4 := pySplitGo_cons_ne (c := 't')
    (isPrefixOf_cons_ne _ _ (by decide)) h5
  have h3 := pySplitGo_cons_ne (c := 't')
    (isPrefixOf_cons_ne _ _ (by decide)) h4
  have h2 := pySplitGo_cons_ne (c := 'h')
    (isPrefixOf_cons_ne _ _ (by decide)) h3
  exact h2

theorem pySplit_scheme_http {rest : List Char}
    (h : firstOcc ("//".toList) rest = none) :
    pySplit (("http://".toList) ++ rest) ("//".toList)
      = ["http:".toList, rest] := by
  rw [pySplit, if_neg (by decide)]
  have h8 := pySplitGo_slashes h
  have h7 := pySplitGo_cons_ne (c := ':')
    (isPrefixOf_cons_ne _ _ (by decide)) h8
  have h5 := pySplitGo_cons_ne (c := 'p')
    (isPrefixOf_cons_ne _ _ (by decide)) h7
  have h4 := pySplitGo_cons_ne (c := 't')
    (isPrefixOf_cons_ne _ _ (by decide)) h5
  have h3 := pySplitGo_cons_ne (c := 't')
    (isPrefixOf_cons_ne _ _ (by decide)) h4
  have h2 := pySplitGo_cons_ne (c := 'h')
    (isPrefixOf_cons_ne _ _ (by decide)) h3
  exact h2

theorem https_not_prefix_http (rest : List Char) :
    ("https://".toList).isPrefixOf (("http://".toList) ++ rest) = false := by
  simp [List.isPrefixOf]

/-- C10: `_domain_name` takes the host as the text between the LAST `//`
of the URL and the next `/`.  On a URL `scheme ++ rest` whose remainder
holds no further `//` the result is scheme plus host, but on
`https://example.com/a//b` the result is `https://b`, not the page's
scheme plus host `https://example.com`. -/
theorem c10_domain_name :
    (∀ rest : List Char, containsSub rest ("//".toList) = false →
      domain_name (("https://".toList) ++ rest) =
        some (("https://".toList) ++ rest.takeWhile (fun c => c ≠ '/')) ∧
      domain_name (("http://".toList) ++ rest) =
        some (("http://".toList) ++ rest.takeWhile (fun c => c ≠ '/'))) ∧
    (domain_name ("https://example.com/a//b".toList) =
        some ("https://b".toList) ∧
      ¬ ("https://b".toList) = ("https://example.com".toList)) := by
  constructor
  · intro rest h
    have hocc : firstOcc ("//".toList) rest = none := by
      rw [containsSub] at h
      cases ho : firstOcc ("//".toList) rest with
      | none => rfl
      | some i => rw [ho] at h; cases h
    constructor
    · rw [domain_name, matchScheme,
        if_pos (isPrefixOf_append_self ("https://".toList) rest)]
      rw [pySplit_scheme_https hocc]
      rfl
    · rw [domain_name, matchScheme]
      rw [if_neg (by rw [https_not_prefix_http rest]; exact Bool.false_ne_true),
        if_pos (isPrefixOf_append_self ("http://".toList) rest)]
      rw [pySplit_scheme_http hocc]
      rfl
  · constructor
    · decide
    · decide

/-- Witness for `c10_domain_name` on `https://example.com/news`. -/
theorem c10_witness :
    domain_name (("https://".toList) ++ ("example.com/news".toList)) =
      some (("https://".toList) ++
        ("example.com/news".toList).takeWhile (fun c => c ≠ '/')) :=
  (c10_domain_name.1 ("example.com/news".toList) (by decide)).1

/-- C8: the `ul` removal pattern is broken — `'<(ul).*?</\1>(?s)'` is not
a raw string, so its close literal contains U+0001 and never matches: a
plain `<ul>…</ul>` block survives preprocessing unchanged, while e.g. the
`script` family is removed (and zero matches raise nothing: the other
seven patterns leave the `ul` input untouched without error). -/
theorem c8_ul_family_not_removed :
    prepocess ("<ul><li>a</li></ul>".toList) = ("<ul><li>a</li></ul>".toList) ∧
    prepocess ("<script>var x;</script>ok<style>b</style>".toList) =
      ("ok".toList) ∧
    prepocess ("<meta charset=utf-8><nav>n</nav><footer>f</footer>ok".toList) =
      ("ok".toList) := by
  decide

theorem linesOf_cons_nl (s : List Char) : linesOf (NL :: s) = [] :: linesOf s := by
  rw [linesOf]
  exact if_pos rfl

theorem linesOf_cons_other {c : Char} (h : ¬ c = NL) (s : List Char) :
    linesOf (c :: s) = match linesOf s with
      | [] => [[c]]
      | l :: ls => (c :: l) :: ls := by
  rw [linesOf]
  exact if_neg h

theorem linesOf_ne_nil : ∀ s : List Char, linesOf s ≠ []
  | [] => by simp [linesOf]
  | c :: s => by
    by_cases h : c = NL
    · rw [h, linesOf_cons_nl]; simp
    · rw [linesOf_cons_other h]
      cases linesOf s <;> simp

theorem linesOf_no_nl : ∀ w : List Char, (∀ c ∈ w, ¬ c = NL) → linesOf w = [w]
  | [], _ => rfl
  | c :: w, h => by
    rw [linesOf_cons_other (h c (List.mem_cons_self c w)),
      linesOf_no_nl w (fun d hd => h d (List.mem_cons_of_mem c hd))]

theorem linesOf_append_nl : ∀ a b : List Char,
    linesOf (a ++ NL :: b) = linesOf a ++ linesOf b
  | [], b => by
    rw [List.nil_append, linesOf_cons_nl]
    rfl
  | c :: a, b => by
    by_cases h : c = NL
    · subst h
      rw [List.cons_append, linesOf_cons_nl, linesOf_append_nl a b, linesOf_cons_nl]
      rfl
    · rw [List.cons_append, linesOf_cons_other h, linesOf_append_nl a b,
        linesOf_cons_other h]
      cases hla : linesOf a with
      | nil => exact absurd hla (linesOf_ne_nil a)
      | cons l ls => rfl

theorem getLastD_concat_my {α : Type} (a d : α) :
    ∀ l : List α, (l ++ [a]).getLastD d = a
  | [] => rfl
  | x :: l => by
    rw [List.cons_append]
    rw [List.getLastD_cons, getLastD_concat_my a x l]

theorem lines_append_no_nl : ∀ (s w : List Char), (∀ c ∈ w, ¬ c = NL) →
    linesOf (s ++ w) = (linesOf s).dropLast ++ [(linesOf s).getLastD [] ++ w]
  | [], w, hw => by
    rw [List.nil_append, linesOf_no_nl w hw]
    rfl
  | c :: s, w, hw => by
    by_cases h : c = NL
    · subst h
      rw [List.cons_append, linesOf_cons_nl, lines_append_no_nl s w hw,
        linesOf_cons_nl]
      have hne := linesOf_ne_nil s
      rw [List.dropLast_cons_of_ne_nil hne, List.getLastD_cons]
      rfl
    · rw [List.cons_append, linesOf_cons_other h, lines_append_no_nl s w hw,
        linesOf_cons_other h]
      cases hls : linesOf s with
      | nil => exact absurd hls (linesOf_ne_nil s)
      | cons l0 ls0 =>
        cases ls0 with
        | nil => rfl
        | cons l1 ls1 => rfl

theorem prefix_take_drop : ∀ (pat s : List Char), pat.isPrefixOf s = true →
    pat ++ s.drop pat.length = s
  | [], s, _ => by simp
  | a :: pat, [], h => by simp [List.isPrefixOf] at h
  | a :: pat, b :: s, h => by
    rw [List.isPrefixOf] at h
    simp only [Bool.and_eq_true, beq_iff_eq] at h
    rw [h.1, List.length_cons, List.cons_append, List.drop_succ_cons,
      prefix_take_drop pat s h.2]

theorem firstOcc_decomp {pat : List Char} :
    ∀ {s : List Char} {i : Nat}, firstOcc pat s = some i →
      s.take i ++ pat ++ s.drop (i + pat.length) = s
  | [], i, h => by
    rw [firstOcc] at h
    by_cases hp : pat = []
    · subst hp
      rw [if_pos rfl] at h
      cases h
      simp
    · rw [if_neg hp] at h; cases h
  | c :: rest, i, h => by
    rw [firstOcc] at h
    by_cases hpre : pat.isPrefixOf (c :: rest) = true
    · rw [if_pos hpre] at h
      cases h
      rw [List.take_zero, List.nil_append, Nat.zero_add]
      exact prefix_take_drop pat (c :: rest) hpre
    · rw [if_neg hpre] at h
      cases hr : firstOcc pat rest with
      | none => exact Option.noConfusion (hr ▸ h)
      | some i2 =>
        rw [hr] at h
        have hi : i = i2 + 1 := by cases h; rfl
        subst hi
        have ih := firstOcc_decomp (s := rest) hr
        rw [List.take_succ_cons,
          show i2 + 1 + pat.length = (i2 + pat.length) + 1 from by omega,
          List.drop_succ_cons]
        simp only [List.cons_append]
        rw [ih]

theorem linesOf_collapse_aux :
    ∀ (n : Nat) (s : List Char), s.length ≤ n →
      ∀ l ∈ linesOf (pyReplace s [NL, NL, NL] [NL]), l ∈ linesOf s := by
  intro n
  induction n with
  | zero =>
    intro s hs l hl
    have hnil : s = [] := List.eq_nil_of_length_eq_zero (Nat.le_zero.mp hs)
    subst hnil
    exact hl
  | succ n ih =>
    intro s hs l hl
    cases hf : firstOcc [NL, NL, NL] s with
    | none =>
      rwa [pyReplace_of_firstOcc_none [NL] (by decide) s hf] at hl
    | some i =>
      have hdec := @firstOcc_decomp [NL, NL, NL] s i hf
      rw [pyReplace_of_firstOcc_some [NL] (by decide) s i hf] at hl
      have h3 : ([NL, NL, NL] : List Char).length = 3 := rfl
      rw [h3] at hl hdec
      rw [List.append_assoc, List.singleton_append, linesOf_append_nl] at hl
      rcases List.mem_append.mp hl with h1 | h2
      · rw [← hdec, List.append_assoc, List.cons_append, List.cons_append,
          List.cons_append, List.nil_append, linesOf_append_nl,
          linesOf_cons_nl, linesOf_cons_nl]
        exact List.mem_append.mpr (Or.inl h1)
      · have hlen : (s.drop (i + 3)).length ≤ n := by
          rw [List.length_drop]
          omega
        have hd := ih (s.drop (i + 3)) hlen l h2
        rw [← hdec, List.append_assoc, List.cons_append, List.cons_append,
          List.cons_append, List.nil_append, linesOf_append_nl,
          linesOf_cons_nl, linesOf_cons_nl]
        exact List.mem_append.mpr
          (Or.inr (List.mem_cons_of_mem _ (List.mem_cons_of_mem _ hd)))

theorem linesOf_pyReplace_nl3 (s : List Char) :
    ∀ l ∈ linesOf (pyReplace s [NL, NL, NL] [NL]), l ∈ linesOf s :=
  linesOf_collapse_aux s.length s (Nat.le_refl _)

/-- A line consisting of a single token of the list (possibly stripped of
leading whitespace, as at line starts). -/
def lineTok (toks : List (List Char)) (l : List Char) : Prop :=
  ∃ tk ∈ toks, l = tk ∨ l = tk.dropWhile isSpace

/-- A line acceptable for the wrap bound: within `MAX`, or a single
(unbreakable) token. -/
def lineOK (MAX : Nat) (toks : List (List Char)) (l : List Char) : Prop :=
  l.length ≤ MAX ∨ lineTok toks l

/-- Invariant of the wrapping loop state `(length, new_string)`. -/
def wrapInv (MAX : Nat) (toks : List (List Char)) : Nat × List Char → Prop
  | (len, out) =>
    1 ≤ len ∧
    (∀ l ∈ (linesOf out).dropLast, lineOK MAX toks l) ∧
    ((linesOf out).getLastD []).length + 1 ≤ len ∧
    (len ≤ MAX ∨ lineTok toks ((linesOf out).getLastD []) ∨
      (linesOf out).getLastD [] = [])

theorem dropLast_concat_my {α : Type} (a : α) : ∀ l : List α, (l ++ [a]).dropLast = l
  | [] => rfl
  | x :: l => by
    rw [List.cons_append, List.dropLast_cons_of_ne_nil (by simp),
      dropLast_concat_my a l]

theorem mem_dropLast_or_getLastD {α : Type} :
    ∀ (X : List α), X ≠ [] → ∀ (d : α) (l : α), l ∈ X →
      l ∈ X.dropLast ∨ l = X.getLastD d
  | [], h => absurd rfl h
  | [x], _ => by
    intro d l hl
    simp only [List.mem_singleton] at hl
    exact Or.inr (by rw [hl]; rfl)
  | x :: y :: X, _ => by
    intro d l hl
    rcases List.mem_cons.mp hl with h1 | h2
    · rw [List.dropLast_cons_of_ne_nil (by simp)]
      exact Or.inl (h1 ▸ List.mem_cons_self x _)
    · rcases mem_dropLast_or_getLastD (y :: X) (by simp) x l h2 with h3 | h4
      · rw [List.dropLast_cons_of_ne_nil (by simp)]
        exact Or.inl (List.mem_cons_of_mem x h3)
      · rw [List.getLastD_cons]
        exact Or.inr h4

theorem linesOK_all (MAX : Nat) (toks : List (List Char)) (len : Nat)
    (out : List Char) (hinv : wrapInv MAX toks (len, out)) :
    ∀ l ∈ linesOf out, lineOK MAX toks l := by
  obtain ⟨h1, hfront, hlast, hdisj⟩ := hinv
  intro l hl
  rcases mem_dropLast_or_getLastD (linesOf out) (linesOf_ne_nil out) [] l hl
    with h2 | h3
  · exact hfront l h2
  · rw [h3]
    rcases hdisj with hm | ht | he
    · exact Or.inl (by omega)
    · exact Or.inr ht
    · rw [he]
      exact Or.inl (by simp)

theorem wrapInv_build (MAX : Nat) (toks : List (List Char)) (m : Nat)
    (s' : List Char) (Y : List (List Char)) (v : List Char)
    (hsplit : linesOf s' = Y ++ [v])
    (hY : ∀ l ∈ Y, lineOK MAX toks l)
    (hm : 1 ≤ m) (hv : v.length + 1 ≤ m)
    (hd : m ≤ MAX ∨ lineTok toks v ∨ v = []) :
    wrapInv MAX toks (m, s') := by
  refine ⟨hm, ?_, ?_, ?_⟩
  · rw [hsplit, dropLast_concat_my]
    exact hY
  · rw [hsplit, getLastD_concat_my]
    exact hv
  · rw [hsplit, getLastD_concat_my]
    exact hd

theorem wrapStep_inv (MAX : Nat) (toks : List (List Char)) (len : Nat)
    (out tok : List Char) (htok : tok ∈ toks)
    (hnl : tok = [NL] ∨ ∀ c ∈ tok, ¬ c = NL)
    (hinv : wrapInv MAX toks (len, out)) :
    wrapInv MAX toks (wrapStep MAX (len, out) tok) := by
  have hall : ∀ l ∈ linesOf out, lineOK MAX toks l :=
    linesOK_all MAX toks len out hinv
  obtain ⟨h1, hfront, hlast, hdisj⟩ := hinv
  simp only [wrapStep]
  set w := if len = 1 then tok.dropWhile isSpace else tok with hwdef
  have hwfree : ¬ w = [NL] → ∀ c ∈ w, ¬ c = NL := by
    intro hne c hc
    rcases hnl with h | h
    · subst h
      rw [hwdef] at hc hne
      by_cases hl1 : len = 1
      · rw [if_pos hl1] at hc
        have : ([NL] : List Char).dropWhile isSpace = [] := by decide
        rw [this] at hc
        cases hc
      · rw [if_neg hl1] at hne
        exact absurd rfl hne
    · have hmem : c ∈ tok := by
        rw [hwdef] at hc
        by_cases hl1 : len = 1
        · rw [if_pos hl1] at hc
          exact (List.dropWhile_sublist _).subset hc
        · rw [if_neg hl1] at hc
          exact hc
      exact h c hmem
  have hwtok : lineTok toks w := by
    rw [hwdef]
    by_cases hl1 : len = 1
    · rw [if_pos hl1]
      exact ⟨tok, htok, Or.inr rfl⟩
    · rw [if_neg hl1]
      exact ⟨tok, htok, Or.inl rfl⟩
  have hwlen : w.length ≤ tok.length := by
    rw [hwdef]
    by_cases hl1 : len = 1
    · rw [if_pos hl1]
      exact (List.dropWhile_sublist isSpace).length_le
    · rw [if_neg hl1]
  by_cases hWNL : w = [NL]
  · rw [if_pos hWNL, hWNL]
    by_cases hM0 : 1 > MAX
    · rw [if_pos hM0]
      refine wrapInv_build MAX toks _ _ (linesOf (out ++ [NL]) ++ [[]]) [] ?_ ?_ (by decide) (by decide) (Or.inr (Or.inr rfl))
      · rw [linesOf_append_nl, List.append_assoc]
        rfl
      · intro l hl
        rw [linesOf_append_nl] at hl
        rcases List.mem_append.mp hl with h2 | h3
        · rcases List.mem_append.mp h2 with h4 | h5
          · exact hall l h4
          · simp only [linesOf, List.mem_singleton] at h5
            exact Or.inl (by rw [h5]; simp)
        · simp only [List.mem_singleton] at h3
          exact Or.inl (by rw [h3]; simp)
    · rw [if_neg hM0]
      by_cases hM1 : 1 = MAX
      · rw [if_pos hM1]
        refine wrapInv_build MAX toks _ _ (linesOf ((out ++ [NL]) ++ [NL])) [] ?_ ?_ (by decide) (by decide) (Or.inr (Or.inr rfl))
        · rw [linesOf_append_nl]
          rfl
        · intro l hl
          rw [linesOf_append_nl, linesOf_append_nl] at hl
          rcases List.mem_append.mp hl with h2 | h3
          · rcases List.mem_append.mp h2 with h4 | h5
            · exact hall l h4
            · simp only [linesOf, List.mem_singleton] at h5
              exact Or.inl (by rw [h5]; simp)
          · simp only [linesOf, List.mem_singleton] at h3
            exact Or.inl (by rw [h3]; simp)
      · rw [if_neg hM1]
        refine wrapInv_build MAX toks _ _ (linesOf (out ++ [NL])) [] ?_ ?_ (by decide) (by decide) (Or.inr (Or.inr rfl))
        · rw [linesOf_append_nl]
          rfl
        · intro l hl
          rw [linesOf_append_nl] at hl
          rcases List.mem_append.mp hl with h2 | h3
          · exact hall l h2
          · simp only [linesOf, List.mem_singleton] at h3
            exact Or.inl (by rw [h3]; simp)
  · rw [if_neg hWNL]
    have hwf : ∀ c ∈ w, ¬ c = NL := hwfree hWNL
    by_cases hgt : len + tok.length > MAX
    · rw [if_pos hgt]
      refine wrapInv_build MAX toks _ _ (linesOf out) w ?_ hall (by omega) (Nat.le_refl _) (Or.inr (Or.inl hwtok))
      rw [linesOf_append_nl, linesOf_no_nl w hwf]
    · rw [if_neg hgt]
      by_cases heq : len + tok.length = MAX
      · rw [if_pos heq]
        refine wrapInv_build MAX toks _ _
          ((linesOf out).dropLast ++ [(linesOf out).getLastD [] ++ w]) []
          ?_ ?_ (by decide) (by decide) (Or.inr (Or.inr rfl))
        · rw [linesOf_append_nl, lines_append_no_nl out w hwf]
          rfl
        · intro l hl
          rcases List.mem_append.mp hl with h2 | h3
          · exact hfront l h2
          · rw [List.mem_singleton.mp h3]
            refine Or.inl ?_
            rw [List.length_append]
            omega
      · rw [if_neg heq]
        refine wrapInv_build MAX toks _ _ (linesOf out).dropLast
          ((linesOf out).getLastD [] ++ w)
          (lines_append_no_nl out w hwf) hfront (by omega) ?_ (Or.inl (by omega))
        rw [List.length_append]
        omega

theorem tryBracket_no_nl (s tok : List Char) (h : tryBracket s = some tok) :
    ∀ c ∈ tok, ¬ c = NL := by
  rw [tryBracket.eq_def] at h
  split at h
  next r =>
    split at h
    next hsch =>
      dsimp only at h
      split at h
      next => exact Option.noConfusion h
      next j hj =>
        have htok := Option.some.inj h
        subst htok
        intro c hc
        rcases List.mem_cons.mp hc with h1 | h2
        · subst h1; decide
        · rcases List.mem_append.mp h2 with h3 | h4
          · rcases List.mem_append.mp h3 with h5 | h6
            · intro hcnl
              subst hcnl
              exact absurd h5 (by decide)
            · have hrun := (List.take_sublist j _).subset h6
              have hns : (!isSpace c) = true := List.mem_takeWhile_imp (p := fun c => !isSpace c) hrun
              intro hcnl
              rw [hcnl] at hns
              exact absurd hns (by decide)
          · rw [List.mem_singleton.mp h4]; decide
    next hsch1 =>
      split at h
      next hsch2 =>
        dsimp only at h
        split at h
        next => exact Option.noConfusion h
        next j hj =>
          have htok := Option.some.inj h
          subst htok
          intro c hc
          rcases List.mem_cons.mp hc with h1 | h2
          · subst h1; decide
          · rcases List.mem_append.mp h2 with h3 | h4
            · rcases List.mem_append.mp h3 with h5 | h6
              · intro hcnl
                subst hcnl
                exact absurd h5 (by decide)
              · have hrun := (List.take_sublist j _).subset h6
                have hns : (!isSpace c) = true := List.mem_takeWhile_imp (p := fun c => !isSpace c) hrun
                intro hcnl
                rw [hcnl] at hns
                exact absurd hns (by decide)
            · rw [List.mem_singleton.mp h4]; decide
      next => exact Option.noConfusion h
  next hne => exact Option.noConfusion h

theorem tokenizeGo_nl_clean : ∀ (s : List Char) (skip : Nat) (t : List Char),
    t ∈ tokenizeGo skip s → t = [NL] ∨ ∀ c ∈ t, ¬ c = NL
  | [], skip, t, ht => by
    cases skip <;> simp [tokenizeGo] at ht
  | c :: rest, skip + 1, t, ht =>
    tokenizeGo_nl_clean rest skip t (by rwa [tokenizeGo] at ht)
  | c :: rest, 0, t, ht => by
    rw [tokenizeGo] at ht
    cases hb : tryBracket (c :: rest) with
    | some tok =>
      rw [hb] at ht
      rcases List.mem_cons.mp ht with h1 | h2
      · exact Or.inr (h1 ▸ tryBracket_no_nl _ tok hb)
      · exact tokenizeGo_nl_clean rest _ t h2
    | none =>
      rw [hb] at ht
      by_cases hw : isWordChar c = true
      · rw [if_pos hw] at ht
        rcases List.mem_cons.mp ht with h1 | h2
        · refine Or.inr ?_
          intro d hd
          rw [h1] at hd
          have hwd : isWordChar d = true :=
            List.mem_takeWhile_imp (p := isWordChar) hd
          intro hdnl
          rw [hdnl] at hwd
          exact absurd hwd (by decide)
        · exact tokenizeGo_nl_clean rest _ t h2
      · rw [if_neg hw] at ht
        by_cases hp : isPunctTok c = true
        · rw [if_pos hp] at ht
          rcases List.mem_cons.mp ht with h1 | h2
          · by_cases hcnl : c = NL
            · exact Or.inl (by rw [h1, hcnl])
            · refine Or.inr ?_
              intro d hd
              rw [h1] at hd
              rw [List.mem_singleton.mp hd]
              exact hcnl
          · exact tokenizeGo_nl_clean rest 0 t h2
        · rw [if_neg hp] at ht
          exact tokenizeGo_nl_clean rest 0 t ht

theorem tokenize_nl_clean (s : List Char) :
    ∀ t ∈ tokenize s, t = [NL] ∨ ∀ c ∈ t, ¬ c = NL :=
  fun t ht => tokenizeGo_nl_clean s 0 t ht

theorem foldl_wrapInv (MAX : Nat) (toks : List (List Char)) :
    ∀ (l : List (List Char)), (∀ t ∈ l, t ∈ toks) →
      (∀ t ∈ l, t = [NL] ∨ ∀ c ∈ t, ¬ c = NL) →
      ∀ st : Nat × List Char, wrapInv MAX toks st →
        wrapInv MAX toks (l.foldl (wrapStep MAX) st)
  | [], _, _, _, h => h
  | t :: l, hsub, hnl, st, h => by
    rw [List.foldl_cons]
    obtain ⟨len, out⟩ := st
    exact foldl_wrapInv MAX toks l
      (fun u hu => hsub u (List.mem_cons_of_mem t hu))
      (fun u hu => hnl u (List.mem_cons_of_mem t hu))
      (wrapStep MAX (len, out) t)
      (wrapStep_inv MAX toks len out t (hsub t (List.mem_cons_self t l))
        (hnl t (List.mem_cons_self t l)) h)

theorem wrapInv_init (MAX : Nat) (toks : List (List Char)) :
    wrapInv MAX toks (1, []) :=
  ⟨Nat.le_refl 1, fun l hl => absurd hl (by simp [linesOf]),
    Nat.le_refl 1, Or.inr (Or.inr rfl)⟩

/-- C7: for every input text and every maximum line width, every line of
the reflowed output (`prepare_wrap`, lines 310-338 of `prepare_text`) is
at most `MAX` characters long, except that a line may consist of a single
token of the input (possibly stripped of leading whitespace, as happens at
line starts) — in particular an over-long token is placed alone on its own
line. -/
theorem c7_line_bound (MAX : Nat) (s : List Char) :
    ∀ l ∈ linesOf (prepare_wrap MAX s),
      l.length ≤ MAX ∨ ∃ tk ∈ tokenize s, l = tk ∨ l = tk.dropWhile isSpace := by
  intro l hl
  rw [prepare_wrap] at hl
  have hl2 := linesOf_pyReplace_nl3 (wrapTokens MAX (tokenize s)) l hl
  rcases hfold : (tokenize s).foldl (wrapStep MAX) (1, []) with ⟨len, out⟩
  have hinv : wrapInv MAX (tokenize s) (len, out) := by
    rw [← hfold]
    exact foldl_wrapInv MAX (tokenize s) (tokenize s) (fun t ht => ht)
      (tokenize_nl_clean s) (1, []) (wrapInv_init MAX (tokenize s))
  have hout : wrapTokens MAX (tokenize s) = out := by
    rw [wrapTokens, hfold]
  rw [hout] at hl2
  exact linesOK_all MAX (tokenize s) len out hinv l hl2

/-- Witness for C7: with width 3 and input `"AAAA B"`, the over-long line
`"AAAA"` of the output is exactly the over-long token `"AAAA"`. -/
theorem c7_witness :
    ("AAAA".toList).length ≤ 3 ∨
      ∃ tk ∈ tokenize ("AAAA B".toList),
        "AAAA".toList = tk ∨ "AAAA".toList = tk.dropWhile isSpace :=
  c7_line_bound 3 ("AAAA B".toList) ("AAAA".toList) (by decide)
